import Mathlib

/-!
# Idefix: input parameters, dump records, the `randm` generator and a reflecting boundary

A shallow embedding of the parts of the Idefix sources that the properties below are
about, followed by the properties themselves.

* `src/output/outputDump.hpp`: `DataType`, `OutputDump::nameSize`. The header only declares
  the functions of `OutputDump`; the record format, the layout arithmetic and the
  write and read paths are modelled from the specification, at byte level.
* `src/input.hpp`: `Input::Get<T>` and `Input::GetOrSet<T>`.
* `Test/MHD/HallDisk/setup.cpp`, `test/MHD/ShearingBox/setup.cpp`: `randm`.
* `test/HD/MachReflection/setup.cpp`: `UserdefBoundary`, lower x2 boundary.

Conventions. A C++ `int` is an integer of `ℤ` (or of `ℕ` for a loop index that starts at
0); the places where its 32-bit range matters say so. A `double` is the rational number it
stands for, and an operation on doubles is the exact operation followed by `roundDouble`,
the rounding to the nearest binary64 value; `real` is `double`, the default precision of
Idefix.
-/

/-! ## Part I: definitions -/

/-! ### Double precision arithmetic -/

/-- Conversion of a floating value to `int`, `(int) x`: truncation toward zero. -/
def truncToInt (x : ℚ) : ℤ := if 0 ≤ x then ⌊x⌋ else ⌈x⌉

/-- Rounding to the nearest integer, a tie going to the even one. -/
def roundHalfEven (y : ℚ) : ℤ :=
  if y - ⌊y⌋ < 1 / 2 then ⌊y⌋
  else if 1 / 2 < y - ⌊y⌋ then ⌊y⌋ + 1
  else if ⌊y⌋ % 2 = 0 then ⌊y⌋ else ⌊y⌋ + 1

/-- Rounding of a real number to binary64 (53 significant bits, round to nearest, ties to
even): the value is scaled so that it lies in `[2^52, 2^53)`, rounded to an integer and
scaled back. Exponent limits (overflow, subnormal numbers) are not modelled; no value in
this file comes near them. -/
def roundDouble (x : ℚ) : ℚ :=
  if x = 0 then 0
  else (roundHalfEven (x / (2 : ℚ) ^ (Int.log 2 |x| - 52)) : ℚ) * (2 : ℚ) ^ (Int.log 2 |x| - 52)

/-- The C function `fmod(x, y)`: `x - y * trunc(x / y)`, computed without rounding error. -/
def fmod (x y : ℚ) : ℚ := x - y * (truncToInt (x / y) : ℚ)

/-! ### `randm` (HallDisk and ShearingBox setups) -/

namespace HallDisk

/-- Value of the initialiser of the static generator state,
`static int in0 = 13763 + 2417*idfx::prank`, for process rank `prank`. -/
def seed (prank : ℤ) : ℤ := 13763 + 2417 * prank

/-- One call of `randm` of `Test/MHD/HallDisk/setup.cpp` on the static state `in0`:
`q = (int) fmod((double) a * in0, m); in0 = q; return (real) ((double) q / (double) m)`.
The result is the pair (returned value, new value of `in0`). The type `real` (idefix.hpp,
not among the sources) is taken as `double`, the precision Idefix is built with by default,
so that the conversion `(real)` changes nothing. -/
def randm (in0 : ℤ) : ℚ × ℤ :=
  let a : ℤ := 16807
  let m : ℤ := 2147483647
  let q : ℤ := truncToInt (fmod (roundDouble ((a : ℚ) * (in0 : ℚ))) (m : ℚ))
  (roundDouble ((q : ℚ) / (m : ℚ)), q)

/-- Value of the static state `in0` after `n` calls of `randm`, starting from `s0`. -/
def randmState (s0 : ℤ) : ℕ → ℤ
  | 0 => s0
  | n + 1 => (randm (randmState s0 n)).2

/-- Value returned by call number `n + 1` of `randm`, the state starting from `s0`. -/
def randmValue (s0 : ℤ) (n : ℕ) : ℚ := (randm (randmState s0 n)).1

end HallDisk

namespace ShearingBox

/-- Value of the initialiser `static int in0 = 13763 + 2417*idfx::prank`. -/
def seed (prank : ℤ) : ℤ := 13763 + 2417 * prank

/-- One call of `randm` of `test/MHD/ShearingBox/setup.cpp`, translated from this second
copy of the function: (returned value, new value of `in0`). -/
def randm (in0 : ℤ) : ℚ × ℤ :=
  let a : ℤ := 16807
  let m : ℤ := 2147483647
  let q : ℤ := truncToInt (fmod (roundDouble ((a : ℚ) * (in0 : ℚ))) (m : ℚ))
  (roundDouble ((q : ℚ) / (m : ℚ)), q)

/-- Value of the static state `in0` after `n` calls of `randm`, starting from `s0`. -/
def randmState (s0 : ℤ) : ℕ → ℤ
  | 0 => s0
  | n + 1 => (randm (randmState s0 n)).2

/-- Value returned by call number `n + 1` of `randm`, the state starting from `s0`. -/
def randmValue (s0 : ℤ) (n : ℕ) : ℚ := (randm (randmState s0 n)).1

end ShearingBox

/-- Binary exponentiation modulo `m`, with `fuel` bounding the number of bits of `e`. -/
def powMod (m : ℕ) : ℕ → ℕ → ℕ → ℕ
  | 0, _, _ => 1 % m
  | fuel + 1, b, e =>
    if e = 0 then 1 % m
    else if e % 2 = 0 then powMod m fuel (b * b % m) (e / 2)
    else b * powMod m fuel (b * b % m) (e / 2) % m

/-! ### `src/input.hpp` -/

/-- The type `std::vector<std::string>`: the parameters of one entry. -/
abbrev IdefixParamContainer := List String

/-- The type `std::map<std::string, IdefixParamContainer>`: the entries of one block, as an
association list read by its first matching key. -/
abbrev IdefixBlockContainer := List (String × IdefixParamContainer)

/-- The type `std::map<std::string, IdefixBlockContainer>`: the blocks of the input file. -/
abbrev IdefixInputContainer := List (String × IdefixBlockContainer)

/-- Lookup of a key in a `std::map`: the value stored under key `k`, if any. -/
def mapFind {β : Type} (m : List (String × β)) (k : String) : Option β :=
  match m with
  | [] => none
  | (k1, v) :: rest => if k1 = k then some v else mapFind rest k

/-- Assignment `m[k] = v` of `std::map`: replaces the value under `k`, or adds the key. -/
def mapSet {β : Type} (m : List (String × β)) (k : String) (v : β) : List (String × β) :=
  match m with
  | [] => [(k, v)]
  | (k1, v1) :: rest => if k1 = k then (k, v) :: rest else (k1, v1) :: mapSet rest k v

/-- Value of `m[k]` of `std::map`: the stored value, or the default-constructed one for a
key that is absent. -/
def mapAt {β : Type} (dflt : β) (m : List (String × β)) (k : String) : β :=
  (mapFind m k).getD dflt

/-- The part of class `Input` that `Get` and `GetOrSet` use. -/
structure Input where
  inputParameters : IdefixInputContainer
deriving DecidableEq, Repr

/-- The errors raised through `IDEFIX_ERROR` by `Input::Get` and `Input::GetOrSet`, one
constructor per message. -/
inductive InputError where
  /-- "Mandatory parameter [block]:entry(num). Cannot be found in the input file" -/
  | mandatoryParameter (blockName paramName : String) (num : ℤ)
  /-- "Boolean parameter [block]:entry(num) cannot be interpreted as boolean in the input
  file. I read ..." -/
  | notBoolean (blockName paramName : String) (num : ℤ) (read : String)
  /-- "Unknown type has been requested from the input file" -/
  | unknownType
  /-- Message of the `catch` block: "Input::Get: Error while reading [block]:entry(num).
  ... cannot be interpreted as required." -/
  | cannotInterpret (blockName paramName : String) (num : ℤ) (paramString : String)
  /-- "Entry [block]:entry is not defined. Only the first (index 0) parameter can be set by
  default." -/
  | entryNotDefined (blockName paramName : String)
  /-- "Entry [block]:entry has n parameters. Only the nth parameter can be set by default." -/
  | cannotSetDefault (blockName paramName : String) (entrySize : ℤ)
deriving DecidableEq, Repr

/-- What a call does: it returns a value, it raises an error through `IDEFIX_ERROR`, or it
subscripts a `std::vector` outside its bounds, after which C++ defines nothing. -/
inductive Outcome (α : Type) where
  | value (v : α)
  | error (e : InputError)
  | undefined
deriving DecidableEq, Repr

/-- The types `T` that `Input::Get<T>` tells apart with `typeid`; `other` is any type
outside its list. -/
inductive ParamType where
  | int | double | float | int64 | string | bool | other
deriving DecidableEq, Repr

/-- The values of type `T`, with `D` and `F` the values of `double` and `float`. -/
@[reducible] def ParamType.val (D F : Type) : ParamType → Type
  | .int => ℤ
  | .double => D
  | .float => F
  | .int64 => ℤ
  | .string => String
  | .bool => Bool
  | .other => Unit

/-- The functions of the C++ standard library that `Get` and `GetOrSet` call on floating
values, taken as parameters: `stod` and `stof` (`none` when they throw), the conversions
`static_cast<int>(std::round(dv))` and `static_cast<int64_t>(std::round(dv))`, and the
text `operator<<` writes for a `double` and a `float`. -/
structure StdLib (D F : Type) where
  stod : String → Option D
  stof : String → Option F
  roundToInt : D → ℤ
  roundToInt64 : D → ℤ
  showDouble : D → String
  showFloat : F → String

/-- The loop `std::for_each(..., c = ::tolower(c))` over the characters of a string. -/
def toLowerString (s : String) : String := String.mk (s.data.map Char.toLower)

namespace Input

/-- Modelled from the spec: the body of `Input::CheckEntry` (input.cpp) is missing from the
sources. From its declaration ("Check that a block+entry is present in the input file") and
its use in `Get` and `GetOrSet` (`entrySize`, "has n parameters", negative when the entry is
not defined): the number of parameters stored for the entry, and -1 when the block or the
entry is absent. -/
def CheckEntry (inp : Input) (blockName paramName : String) : ℤ :=
  match mapFind inp.inputParameters blockName with
  | none => -1
  | some block =>
    match mapFind block paramName with
    | none => -1
    | some params => (params.length : ℤ)

/-- The read `inputParameters[blockName][paramName][num]`: the maps give the stored vector
(an empty one for an absent key), and the subscript of the vector is defined only inside
its bounds. -/
def fetch (inp : Input) (blockName paramName : String) (num : ℤ) : Option String :=
  let params := mapAt [] (mapAt [] inp.inputParameters blockName) paramName
  if 0 ≤ num then params[num.toNat]? else none

/-- The statement `inputParameters[blockName][paramName].push_back(s)`. -/
def pushBack (inp : Input) (blockName paramName : String) (s : String) : Input :=
  let block := mapAt [] inp.inputParameters blockName
  let params := mapAt [] block paramName
  { inputParameters :=
      mapSet inp.inputParameters blockName (mapSet block paramName (params ++ [s])) }

/-- The `try` block of `Input::Get<T>`: the interpretation of `paramString` as a `T`.
The warning on a truncated integer changes no value and is left out. An exception of `stod`
or `stof` ends in the error of the `catch` block; the two errors raised inside the block
keep their own message. -/
def interpret {D F : Type} (lib : StdLib D F) (ty : ParamType) (blockName paramName : String)
    (num : ℤ) (paramString : String) : Outcome (ty.val D F) :=
  match ty with
  | .int =>
    match lib.stod paramString with
    | some dv => .value (lib.roundToInt dv)
    | none => .error (.cannotInterpret blockName paramName num paramString)
  | .double =>
    match lib.stod paramString with
    | some dv => .value dv
    | none => .error (.cannotInterpret blockName paramName num paramString)
  | .float =>
    match lib.stof paramString with
    | some fv => .value fv
    | none => .error (.cannotInterpret blockName paramName num paramString)
  | .int64 =>
    match lib.stod paramString with
    | some dv => .value (lib.roundToInt64 dv)
    | none => .error (.cannotInterpret blockName paramName num paramString)
  | .string => .value paramString
  | .bool =>
    let lowered := toLowerString paramString
    if lowered = "yes" then .value true
    else if lowered = "true" then .value true
    else if lowered = "1" then .value true
    else if lowered = "no" then .value false
    else if lowered = "false" then .value false
    else if lowered = "0" then .value false
    else .error (.notBoolean blockName paramName num lowered)
  | .other => .error .unknownType

/-- The function `Input::Get<T>(blockName, paramName, num)`. -/
def Get {D F : Type} (lib : StdLib D F) (ty : ParamType) (inp : Input)
    (blockName paramName : String) (num : ℤ) : Outcome (ty.val D F) :=
  if inp.CheckEntry blockName paramName ≤ num then
    .error (.mandatoryParameter blockName paramName num)
  else
    match inp.fetch blockName paramName num with
    | none => .undefined
    | some paramString => interpret lib ty blockName paramName num paramString

/-- The text of `strm << std::boolalpha << def` for a default value `def` of type `T`.
Nothing is known of the text of a type outside the list; `Get` rejects the type whatever
the text is. -/
def streamOut {D F : Type} (lib : StdLib D F) (ty : ParamType) (dflt : ty.val D F) : String :=
  match ty, dflt with
  | .int, v => toString v
  | .double, v => lib.showDouble v
  | .float, v => lib.showFloat v
  | .int64, v => toString v
  | .string, v => v
  | .bool, v => if v = true then "true" else "false"
  | .other, _ => ""

/-- The function `Input::GetOrSet<T>(blockName, paramName, num, def)`: the outcome and the
input parameters after the call. -/
def GetOrSet {D F : Type} (lib : StdLib D F) (ty : ParamType) (inp : Input)
    (blockName paramName : String) (num : ℤ) (dflt : ty.val D F) :
    Outcome (ty.val D F) × Input :=
  let entrySize := inp.CheckEntry blockName paramName
  if entrySize ≤ num then
    if entrySize < 0 ∧ 0 < num then
      (.error (.entryNotDefined blockName paramName), inp)
    else if entrySize + 1 < num then
      (.error (.cannotSetDefault blockName paramName entrySize), inp)
    else
      let inp1 := inp.pushBack blockName paramName (streamOut lib ty dflt)
      (inp1.Get lib ty blockName paramName num, inp1)
  else
    (inp.Get lib ty blockName paramName num, inp)

/-- The string stored at index `num` of the entry, when block, entry and index exist. -/
def stored (inp : Input) (blockName paramName : String) (num : ℤ) : Option String :=
  match mapFind inp.inputParameters blockName with
  | none => none
  | some block =>
    match mapFind block paramName with
    | none => none
    | some params => if 0 ≤ num then params[num.toNat]? else none

end Input

/-- Value of a string of decimal digits, `none` when a character is not a digit. -/
def decimalValue (cs : List Char) : Option ℕ :=
  cs.foldl (fun acc c => match acc with
    | none => none
    | some n => if c.isDigit then some (n * 10 + (c.toNat - 48)) else none) (some 0)

/-- Reads an optional minus sign followed by decimal digits. -/
def readInteger (s : String) : Option ℤ :=
  if s.data.head? = some '-' then (decimalValue s.data.tail).map (fun n => -(n : ℤ))
  else (decimalValue s.data).map (fun n => (n : ℤ))

/-- A standard library over the integers, on which the functions can be run: `stod` reads
decimal integers only and no rounding takes place. -/
def integerLib : StdLib ℤ ℤ where
  stod := readInteger
  stof := readInteger
  roundToInt := id
  roundToInt64 := id
  showDouble := toString
  showFloat := toString

/-- A small input file, for examples. -/
def sampleInput : Input :=
  { inputParameters := [("Hydro", [("solver", ["hllc"]), ("csiso", ["constant", "1.0"])]),
                        ("Output", [("vtk", ["YES"]), ("dmp", ["12"])])] }

/-! ### `src/output/outputDump.hpp` -/

/-- The enumeration `enum DataType {DoubleType, SingleType, IntegerType}`. -/
inductive DataType where
  | DoubleType | SingleType | IntegerType
deriving DecidableEq, Repr

/-- The integer value of an enumerator, which is the tag written to the dump file: the
enumerators of a C++ `enum` without initialisers count from 0 in the order they are listed. -/
def DataType.tag : DataType → ℤ
  | .DoubleType => 0
  | .SingleType => 1
  | .IntegerType => 2

/-- The enumerator whose integer value is `n`, as when a tag read from a file is stored in
a variable of type `DataType`; `none` when no enumerator has this value. -/
def DataType.ofTag (n : ℤ) : Option DataType :=
  if n = 0 then some .DoubleType
  else if n = 1 then some .SingleType
  else if n = 2 then some .IntegerType
  else none

namespace OutputDump

/-- The member `const int nameSize = 16`, "len of field names". -/
def nameSize : ℕ := 16

/-- Modelled from the spec: the body of `OutputDump::WriteString` is missing from the
sources (only its declaration is there). The bytes that open a record header: the name in
ASCII, cut or padded with null bytes to `nameSize` bytes. -/
def WriteString (name : String) : List ℕ :=
  ((name.toList.map Char.toNat) ++ List.replicate nameSize 0).take nameSize

end OutputDump

/-! ### `test/HD/MachReflection/setup.cpp` -/

namespace MachReflection

/-- The variables of the cell-centred array `Vc` (hydrodynamics). -/
inductive Var where
  | RHO | VX1 | VX2 | VX3 | PRS
deriving DecidableEq, Repr

/-- An `IdefixArray4D<real>` read as `Vc(var, k, j, i)`. -/
abbrev Array4D := Var → ℕ → ℕ → ℕ → ℚ

/-- The assignment `Vc(v, k, j, i) = x`. -/
def assign (Vc : Array4D) (v : Var) (k j i : ℕ) (x : ℚ) : Array4D :=
  fun v1 k1 j1 i1 => if v1 = v ∧ k1 = k ∧ j1 = j ∧ i1 = i then x else Vc v1 k1 j1 i1

/-- The values `8.25*sin(alpha)` and `-8.25*cos(alpha)` of the inflow state, which depend on
the library functions `sin` and `cos`, taken as parameters. -/
structure Inflow where
  vx1 : ℚ
  vx2 : ℚ

/-- Body of the kernel "UserDefBoundaryX2Beg" for one index triple `(k, j, i)`: the four
assignments of the branch chosen by `x1(i) < 1.0/6.0`, in the order of the source. -/
def x2BegBody (x1 : ℕ → ℚ) (c : Inflow) (jend : ℕ) (Vc : Array4D) (k j i : ℕ) : Array4D :=
  if x1 i < roundDouble (1 / 6) then
    let Vc1 := assign Vc .RHO k j i 8
    let Vc2 := assign Vc1 .VX1 k j i c.vx1
    let Vc3 := assign Vc2 .VX2 k j i c.vx2
    assign Vc3 .PRS k j i (233 / 2)
  else
    let Vc1 := assign Vc .RHO k j i (Vc .RHO k (2 * jend - j - 1) i)
    let Vc2 := assign Vc1 .VX1 k j i (Vc1 .VX1 k (2 * jend - j - 1) i)
    let Vc3 := assign Vc2 .VX2 k j i (-(Vc2 .VX2 k (2 * jend - j - 1) i))
    assign Vc3 .PRS k j i (Vc3 .PRS k (2 * jend - j - 1) i)

/-- The index triples `(k, j, i)` of `idefix_for(name, kb, ke, jb, je, ib, ie, body)`, in
the order of three nested sequential loops. -/
def loopIndices (kb ke jb je ib ie : ℕ) : List (ℕ × ℕ × ℕ) :=
  (List.range' kb (ke - kb)).flatMap fun k =>
    (List.range' jb (je - jb)).flatMap fun j =>
      (List.range' ib (ie - ib)).map fun i => (k, j, i)

/-- Execution of the bodies of an `idefix_for` loop in the order `order`, one body at a
time. -/
def runLoop (order : List (ℕ × ℕ × ℕ)) (body : Array4D → ℕ → ℕ → ℕ → Array4D)
    (Vc : Array4D) : Array4D :=
  order.foldl (fun V p => body V p.1 p.2.1 p.2.2) Vc

/-- The branch `dir == JDIR`, `side == left` of `UserdefBoundary`: `jbeg = 0`,
`jend = data.beg[JDIR]` and the loop "UserDefBoundaryX2Beg" over
`[0, np_tot[KDIR]) x [jbeg, jend) x [0, np_tot[IDIR])`. The loop is parallel: `order` is
the order in which its bodies happen to run, any rearrangement of the index triples. -/
def UserdefBoundaryX2Beg (begJ : ℕ) (x1 : ℕ → ℚ) (c : Inflow)
    (order : List (ℕ × ℕ × ℕ)) (Vc : Array4D) : Array4D :=
  let jend := begJ
  runLoop order (x2BegBody x1 c jend) Vc

/-- The values the kernel body gives cell `(k, j, i)`, read from the array `Vc`. -/
def target (x1 : ℕ → ℚ) (c : Inflow) (jend : ℕ) (Vc : Array4D) (v : Var) (k j i : ℕ) : ℚ :=
  if x1 i < roundDouble (1 / 6) then
    match v with
    | .RHO => 8
    | .VX1 => c.vx1
    | .VX2 => c.vx2
    | .PRS => 233 / 2
    | .VX3 => Vc .VX3 k j i
  else
    match v with
    | .RHO => Vc .RHO k (2 * jend - j - 1) i
    | .VX1 => Vc .VX1 k (2 * jend - j - 1) i
    | .VX2 => -(Vc .VX2 k (2 * jend - j - 1) i)
    | .PRS => Vc .PRS k (2 * jend - j - 1) i
    | .VX3 => Vc .VX3 k j i

/-- A small array for examples: the value of a cell encodes its variable and indices. -/
def sampleVc : Array4D := fun v k j i =>
  (match v with | .RHO => 1 | .VX1 => 2 | .VX2 => 3 | .VX3 => 4 | .PRS => 5) * 1000
    + (k : ℚ) * 100 + (j : ℚ) * 10 + (i : ℚ)

end MachReflection


/-! ### The dump file (`OutputDump::Write`, `OutputDump::Read`) -/

namespace OutputDump

/-- Modelled from the spec: the failures of the dump engine (section 7); the bodies of the
functions of `OutputDump` are missing from the sources. -/
inductive DumpError where
  | LayoutMismatch | IOFailure | UnexpectedField | ShapeMismatch | TruncatedStream
deriving DecidableEq, Repr

/-- Modelled from the spec: `elementSize(type)`, the number of bytes of one element
(double-precision float, single-precision float, integer); the sizes are those of the C++
types `double`, `float` and `int`. -/
def elementSize : DataType → ℕ
  | .DoubleType => 8
  | .SingleType => 4
  | .IntegerType => 4

/-- Modelled from the spec: the bytes of an integer of `width` bytes (an `int` of a header
has 4), least significant byte first. An element of a payload is written the same way, from
its bit pattern. -/
def encodeLE (width n : ℕ) : List ℕ :=
  (List.range width).map fun b => n / 256 ^ b % 256

/-- Modelled from the spec: the integer that a list of bytes stands for, least significant
byte first. -/
def decodeLE (bs : List ℕ) : ℕ :=
  bs.foldr (fun b acc => b + 256 * acc) 0

/-- Modelled from the spec: the file after `bs` is written at byte offset `pos`. The file
is a list of bytes; a write past its end extends it, the bytes skipped reading as 0. -/
def writeAt (file : List ℕ) (pos : ℕ) (bs : List ℕ) : List ℕ :=
  (file ++ List.replicate (pos - file.length) 0).take pos ++ bs ++ file.drop (pos + bs.length)

/-- Modelled from the spec: the `n` bytes at byte offset `pos`, or nothing when the file has
fewer bytes (`TruncatedStream`). -/
def readAt (file : List ℕ) (pos n : ℕ) : Option (List ℕ) :=
  if pos + n ≤ file.length then some ((file.drop pos).take n) else none

/-- Modelled from the spec: `FieldDescriptor` (section 3): name, element type and shape, the
rank being the length of the shape. -/
structure FieldDescriptor where
  name : String
  elementType : DataType
  shape : List ℕ
deriving DecidableEq, Repr

/-- Modelled from the spec: `elementCount = product(shape)`. -/
def FieldDescriptor.elementCount (d : FieldDescriptor) : ℕ := d.shape.prod

/-- Modelled from the spec: the header of a record (section 6): `name` (16 bytes, ASCII,
null-padded), `elementType` as its integer tag, `rank`, then one integer per dimension. -/
def headerBytes (d : FieldDescriptor) : List ℕ :=
  WriteString d.name ++ encodeLE 4 d.elementType.tag.toNat ++ encodeLE 4 d.shape.length
    ++ d.shape.flatMap (encodeLE 4)

/-- Modelled from the spec: `headerSize`, the number of bytes of the header. -/
def headerSize (d : FieldDescriptor) : ℕ := nameSize + 4 + 4 + 4 * d.shape.length

/-- Modelled from the spec: `payloadSize`, `elementSize(type) x product(shape)` bytes. -/
def payloadSize (d : FieldDescriptor) : ℕ := elementSize d.elementType * d.elementCount

/-- Modelled from the spec: `SubdomainLayout` (section 3), over three axes ordered from the
slowest to the fastest. -/
structure SubdomainLayout where
  globalExtent : ℕ × ℕ × ℕ
  localExtent : ℕ × ℕ × ℕ
  localOffset : ℕ × ℕ × ℕ
deriving DecidableEq, Repr

namespace SubdomainLayout

/-- Modelled from the spec: the invariant of a layout, `localOffset + localExtent <=
globalExtent` in every dimension. -/
def within (L : SubdomainLayout) : Prop :=
  L.localOffset.1 + L.localExtent.1 ≤ L.globalExtent.1
  ∧ L.localOffset.2.1 + L.localExtent.2.1 ≤ L.globalExtent.2.1
  ∧ L.localOffset.2.2 + L.localExtent.2.2 ≤ L.globalExtent.2.2

instance (L : SubdomainLayout) : Decidable L.within := by
  unfold within; infer_instance

/-- Modelled from the spec: whether the global index `(k, j, i)` belongs to the subdomain. -/
def owns (L : SubdomainLayout) (k j i : ℕ) : Prop :=
  (L.localOffset.1 ≤ k ∧ k < L.localOffset.1 + L.localExtent.1)
  ∧ (L.localOffset.2.1 ≤ j ∧ j < L.localOffset.2.1 + L.localExtent.2.1)
  ∧ (L.localOffset.2.2 ≤ i ∧ i < L.localOffset.2.2 + L.localExtent.2.2)

instance (L : SubdomainLayout) (k j i : ℕ) : Decidable (L.owns k j i) := by
  unfold owns; infer_instance

/-- Modelled from the spec: the indices `(a, b, c)` of the local array in row-major order,
the order of the elements of a local buffer. -/
def localIndices (L : SubdomainLayout) : List (ℕ × ℕ × ℕ) :=
  (List.range L.localExtent.1).flatMap fun a =>
    (List.range L.localExtent.2.1).flatMap fun b =>
      (List.range L.localExtent.2.2).map fun c => (a, b, c)

/-- Modelled from the spec: the place of the local element `(a, b, c)` in the row-major
global array, counted in elements. -/
def elementOffset (L : SubdomainLayout) (a b c : ℕ) : ℕ :=
  ((L.localOffset.1 + a) * L.globalExtent.2.1 + (L.localOffset.2.1 + b)) * L.globalExtent.2.2
    + (L.localOffset.2.2 + c)

/-- Modelled from the spec: `resolveOffset` of the Layout Resolver (section 4.1), the byte
offset of the local element `(a, b, c)` inside the payload region of a field whose elements
have `size` bytes. -/
def resolveOffset (L : SubdomainLayout) (size a b c : ℕ) : ℕ :=
  size * L.elementOffset a b c

/-- Modelled from the spec: the layout is compatible with the shape of a descriptor: the
shape is the global extent and the subdomain lies inside it (else `LayoutMismatch`). -/
def compatible (L : SubdomainLayout) (shape : List ℕ) : Prop :=
  shape = [L.globalExtent.1, L.globalExtent.2.1, L.globalExtent.2.2] ∧ L.within

instance (L : SubdomainLayout) (shape : List ℕ) : Decidable (L.compatible shape) := by
  unfold compatible; infer_instance

end SubdomainLayout

/-- Modelled from the spec: the payload strategy of a field (section 9): serial, or
distributed over the subdomains with the layout of the process. -/
inductive Strategy where
  | serial
  | distributed (layout : SubdomainLayout)
deriving DecidableEq, Repr

/-- Modelled from the spec: one field binding of a `Dump` on one process: the descriptor,
the strategy and the buffer of the process, a list of elements given by their bit
patterns, in row-major order. -/
structure FieldBinding where
  descriptor : FieldDescriptor
  strategy : Strategy
  buffer : List ℕ
deriving DecidableEq, Repr

/-- Modelled from the spec: the check made before any I/O on a binding: a distributed field
must have a layout compatible with the shape of its descriptor. -/
def FieldBinding.layoutOk (b : FieldBinding) : Bool :=
  match b.strategy with
  | .serial => true
  | .distributed L => decide (L.compatible b.descriptor.shape)

/-- Modelled from the spec: the part of process `rank` in `writeSerial` (section 4.2): the
designated process 0 writes the header and then the whole payload at `offset`; the other
processes write nothing. -/
def WriteSerial (rank : ℕ) (file : List ℕ) (offset : ℕ) (d : FieldDescriptor)
    (buffer : List ℕ) : List ℕ :=
  if rank = 0 then
    writeAt (writeAt file offset (headerBytes d)) (offset + headerSize d)
      (buffer.flatMap (encodeLE (elementSize d.elementType)))
  else file

/-- Modelled from the spec: the writes of the local elements of one process, each at the
byte offset the Layout Resolver gives it inside the payload region that starts at `base`. -/
def scatter (L : SubdomainLayout) (size base : ℕ) :
    List ((ℕ × ℕ × ℕ) × ℕ) → List ℕ → List ℕ
  | [], file => file
  | ((a, b, c), v) :: rest, file =>
    scatter L size base rest (writeAt file (base + L.resolveOffset size a b c) (encodeLE size v))

/-- Modelled from the spec: the part of process `rank` in `writeDistributed` (section 4.2):
process 0 writes the header at `offset`, and every process writes its own local subarray
at the offsets computed by the Layout Resolver. -/
def WriteDistributed (rank : ℕ) (file : List ℕ) (offset : ℕ) (d : FieldDescriptor)
    (L : SubdomainLayout) (buffer : List ℕ) : List ℕ :=
  let file1 := if rank = 0 then writeAt file offset (headerBytes d) else file
  scatter L (elementSize d.elementType) (offset + headerSize d) (L.localIndices.zip buffer) file1

/-- Modelled from the spec: the processes `rank`, `rank + 1`, ... write their part of one
record, given their bindings of the field. -/
def writeAll (rank : ℕ) (file : List ℕ) (offset : ℕ) : List FieldBinding → List ℕ
  | [] => file
  | b :: rest =>
    let file1 := match b.strategy with
      | .serial => WriteSerial rank file offset b.descriptor b.buffer
      | .distributed L => WriteDistributed rank file offset b.descriptor L b.buffer
    writeAll (rank + 1) file1 offset rest

/-- Modelled from the spec: one record written by all processes; `bindings` holds the
binding of the field on process 0, 1, ... The shared offset advances by `headerSize +
payloadSize`. A layout that does not fit the descriptor is a `LayoutMismatch`, raised
before anything is written. -/
def writeRecord (file : List ℕ) (offset : ℕ) (bindings : List FieldBinding) :
    Except DumpError (List ℕ × ℕ) :=
  match bindings with
  | [] => .ok (file, offset)
  | b0 :: _ =>
    if bindings.all FieldBinding.layoutOk then
      .ok (writeAll 0 file offset bindings,
        offset + headerSize b0.descriptor + payloadSize b0.descriptor)
    else .error .LayoutMismatch

/-- Modelled from the spec: the records of the fields number `i` of `fields`, written one
after the other; all processes walk their dumps in lockstep. -/
def writeFields (dumps : List (List FieldBinding)) :
    List ℕ → List ℕ → ℕ → Except DumpError (List ℕ)
  | [], file, _ => .ok file
  | i :: fields, file, offset =>
    match writeRecord file offset (dumps.filterMap fun dump => dump[i]?) with
    | .error e => .error e
    | .ok (file1, offset1) => writeFields dumps fields file1 offset1

/-- Modelled from the spec: `OutputDump::Write`: a full dump written by the processes whose
dumps (ordered lists of field bindings) are `dumps`, process 0 first; the result is the
dump file. -/
def Write (dumps : List (List FieldBinding)) : Except DumpError (List ℕ) :=
  writeFields dumps (List.range (dumps.headD []).length) [] 0

/-- Modelled from the spec: the name held by the 16 bytes of a header: the characters
before the first null byte. -/
def decodeName (bs : List ℕ) : String :=
  String.mk ((bs.takeWhile fun b => b ≠ 0).map Char.ofNat)

/-- Modelled from the spec: the elements of `size` bytes read at the byte offsets
`positions`. -/
def readElements (file : List ℕ) (size : ℕ) : List ℕ → Except DumpError (List ℕ)
  | [] => .ok []
  | pos :: positions =>
    match readAt file pos size with
    | none => .error .TruncatedStream
    | some bs =>
      match readElements file size positions with
      | .error e => .error e
      | .ok vs => .ok (decodeLE bs :: vs)

/-- Modelled from the spec: `readNextFieldProperties` (section 4.3): reads the header at
`offset` and returns its descriptor, the payload left unread. A file too short is a
`TruncatedStream`; a type tag that is no element type makes the field an
`UnexpectedField`. -/
def ReadNextFieldProperties (file : List ℕ) (offset : ℕ) : Except DumpError FieldDescriptor :=
  match readAt file offset nameSize, readAt file (offset + nameSize) 4,
      readAt file (offset + nameSize + 4) 4 with
  | some nameBytes, some tagBytes, some rankBytes =>
    match readElements file 4
        ((List.range (decodeLE rankBytes)).map fun n => offset + nameSize + 8 + 4 * n) with
    | .error e => .error e
    | .ok shape =>
      match DataType.ofTag (decodeLE tagBytes) with
      | none => .error .UnexpectedField
      | some ty => .ok { name := decodeName nameBytes, elementType := ty, shape := shape }
  | _, _, _ => .error .TruncatedStream

/-- Modelled from the spec: `readSerial`: the whole payload that starts at `base`, element
by element. -/
def ReadSerial (file : List ℕ) (base : ℕ) (d : FieldDescriptor) : Except DumpError (List ℕ) :=
  readElements file (elementSize d.elementType)
    ((List.range d.elementCount).map fun g => base + elementSize d.elementType * g)

/-- Modelled from the spec: `readDistributed`: the elements of the subdomain of the process,
each read at the byte offset the Layout Resolver gives it, in the order of the local
buffer. -/
def ReadDistributed (file : List ℕ) (base : ℕ) (d : FieldDescriptor) (L : SubdomainLayout) :
    Except DumpError (List ℕ) :=
  readElements file (elementSize d.elementType)
    (L.localIndices.map fun p =>
      base + L.resolveOffset (elementSize d.elementType) p.1 p.2.1 p.2.2)

/-- Modelled from the spec: one record read by one process into the binding `b` it expects
next: the header is read and validated against the binding (`UnexpectedField` for another
name or element type, `ShapeMismatch` for another shape), then the payload is fetched by
the strategy of the binding. The result is the binding with its buffer filled, and the
offset advanced by `headerSize + payloadSize`. -/
def readRecord (file : List ℕ) (offset : ℕ) (b : FieldBinding) :
    Except DumpError (FieldBinding × ℕ) :=
  match ReadNextFieldProperties file offset with
  | .error e => .error e
  | .ok d =>
    if d.name ≠ b.descriptor.name ∨ d.elementType ≠ b.descriptor.elementType then
      .error .UnexpectedField
    else if d.shape ≠ b.descriptor.shape then .error .ShapeMismatch
    else
      match b.strategy with
      | .serial =>
        match ReadSerial file (offset + headerSize d) d with
        | .error e => .error e
        | .ok buffer => .ok ({ b with buffer := buffer }, offset + headerSize d + payloadSize d)
      | .distributed L =>
        if L.compatible d.shape then
          match ReadDistributed file (offset + headerSize d) d L with
          | .error e => .error e
          | .ok buffer => .ok ({ b with buffer := buffer }, offset + headerSize d + payloadSize d)
        else .error .LayoutMismatch

/-- Modelled from the spec: the records of a dump file read in order from `offset` into the
bindings of the dump of one process. -/
def readFields (file : List ℕ) : ℕ → List FieldBinding → Except DumpError (List FieldBinding)
  | _, [] => .ok []
  | offset, b :: rest =>
    match readRecord file offset b with
    | .error e => .error e
    | .ok (b1, offset1) =>
      match readFields file offset1 rest with
      | .error e => .error e
      | .ok bs => .ok (b1 :: bs)

/-- Modelled from the spec: `OutputDump::Read`: a full dump file loaded by one process into
its dump; the buffers the bindings hold before the call are replaced. -/
def Read (dump : List FieldBinding) (file : List ℕ) : Except DumpError (List FieldBinding) :=
  readFields file 0 dump

/-- Modelled from the spec: one field of the global state: its descriptor, whether its
payload is distributed over the subdomains, and the elements of the whole (global) array
in row-major order, given by their bit patterns. -/
structure GlobalField where
  descriptor : FieldDescriptor
  distributed : Bool
  data : List ℕ
deriving DecidableEq, Repr

/-- Modelled from the spec: the binding of a field of the global state on the process whose
subdomain is `L`: a serial field is held whole, a distributed field by its local subarray. -/
def GlobalField.view (L : SubdomainLayout) (f : GlobalField) : FieldBinding :=
  if f.distributed then
    { descriptor := f.descriptor, strategy := .distributed L,
      buffer := L.localIndices.map fun p => f.data.getD (L.elementOffset p.1 p.2.1 p.2.2) 0 }
  else { descriptor := f.descriptor, strategy := .serial, buffer := f.data }

/-- Modelled from the spec: the dump of the process whose subdomain is `L`, for the global
state `state`. -/
def processDump (state : List GlobalField) (L : SubdomainLayout) : List FieldBinding :=
  state.map (GlobalField.view L)

/-- Modelled from the spec: a field that the record format can hold: a name of at most 16
ASCII characters, none null; a rank and extents that fit an `int`; as many elements as the
shape says, each fitting the element size; and, for a distributed field, the global extent
`G` as its shape. -/
def GlobalField.wellFormed (G : ℕ × ℕ × ℕ) (f : GlobalField) : Prop :=
  f.descriptor.name.data.length ≤ nameSize
  ∧ (∀ c ∈ f.descriptor.name.data, 0 < c.toNat ∧ c.toNat < 128)
  ∧ f.descriptor.shape.length < 2 ^ 31
  ∧ (∀ n ∈ f.descriptor.shape, n < 2 ^ 31)
  ∧ f.data.length = f.descriptor.elementCount
  ∧ (∀ v ∈ f.data, v < 256 ^ elementSize f.descriptor.elementType)
  ∧ (f.distributed = true → f.descriptor.shape = [G.1, G.2.1, G.2.2])

instance (G : ℕ × ℕ × ℕ) (f : GlobalField) : Decidable (f.wellFormed G) := by
  unfold GlobalField.wellFormed; infer_instance

/-- Modelled from the spec: a domain decomposition of the global extent `G` (section 3): one
layout per process, each with global extent `G` and lying inside it, and every global
index owned by exactly one process (no gaps, no overlaps). -/
def validDecomposition (G : ℕ × ℕ × ℕ) (layouts : List SubdomainLayout) : Prop :=
  (∀ L ∈ layouts, L.globalExtent = G ∧ L.within)
  ∧ ∀ k < G.1, ∀ j < G.2.1, ∀ i < G.2.2,
      (layouts.filter fun L => decide (L.owns k j i)).length = 1

instance (G : ℕ × ℕ × ℕ) (layouts : List SubdomainLayout) :
    Decidable (validDecomposition G layouts) := by
  unfold validDecomposition; infer_instance

/-- Modelled from the spec: the bytes of the record of a field as section 6 lays it out: the
header, then the elements of the global array in row-major order. -/
def recordBytes (f : GlobalField) : List ℕ :=
  headerBytes f.descriptor ++ f.data.flatMap (encodeLE (elementSize f.descriptor.elementType))

/-- Invariant of a distributed write: the file agrees with the target `TT` before the payload region, which starts at `base`,
and on the slots of `size` bytes of the elements `g < N` that satisfy `S`. -/
def agrees (TT : List ℕ) (base size N : ℕ) (S : ℕ → Prop) (F : List ℕ) : Prop :=
  base ≤ F.length ∧ F.length ≤ base + size * N
  ∧ (∀ p < base, F[p]? = TT[p]?)
  ∧ ∀ g, S g → g < N → ∀ b < size, F[base + size * g + b]? = TT[base + size * g + b]?

/-- The field of the scenario of section 8: shape (2,2,2), doubles `0.0, 1.0, ..., 7.0`
given by their bit patterns. -/
def scenarioField : GlobalField :=
  { descriptor := { name := "Vc-RHO", elementType := .DoubleType, shape := [2, 2, 2] },
    distributed := true,
    data := [0, 0x3FF0000000000000, 0x4000000000000000, 0x4008000000000000,
      0x4010000000000000, 0x4014000000000000, 0x4018000000000000, 0x401C000000000000] }

/-- A serial field of the scenario: the time of the dump, one double. -/
def scenarioTime : GlobalField :=
  { descriptor := { name := "time", elementType := .DoubleType, shape := [1] },
    distributed := false, data := [0x3FF8000000000000] }

/-- The decomposition of the scenario for one process. -/
def oneProcess : List SubdomainLayout :=
  [{ globalExtent := (2, 2, 2), localExtent := (2, 2, 2), localOffset := (0, 0, 0) }]

/-- The decomposition of the scenario for two processes, each owning half the first axis. -/
def twoProcesses : List SubdomainLayout :=
  [{ globalExtent := (2, 2, 2), localExtent := (1, 2, 2), localOffset := (0, 0, 0) },
   { globalExtent := (2, 2, 2), localExtent := (1, 2, 2), localOffset := (1, 0, 0) }]

end OutputDump

/-! ## Part II: properties -/

/-! ### Rounding lemmas -/

theorem roundHalfEven_intCast (n : ℤ) : roundHalfEven (n : ℚ) = n := by
  simp [roundHalfEven]

theorem roundHalfEven_le {y : ℚ} {k : ℤ} (h : y ≤ k) : roundHalfEven y ≤ k := by
  have hf : ⌊y⌋ ≤ k := Int.floor_le_floor h |>.trans (by simp)
  have hfl : (⌊y⌋ : ℚ) ≤ y := Int.floor_le y
  unfold roundHalfEven
  have key : 1 / 2 ≤ y - ⌊y⌋ → ⌊y⌋ + 1 ≤ k := by
    intro h2
    have : (⌊y⌋ : ℚ) < k := by linarith
    have : ⌊y⌋ < k := by exact_mod_cast this
    omega
  split_ifs with h1 h2 h3
  · exact hf
  · exact key (le_of_lt h2)
  · exact hf
  · exact key (not_lt.mp h1)

theorem le_roundHalfEven {y : ℚ} {k : ℤ} (h : (k : ℚ) ≤ y) : k ≤ roundHalfEven y := by
  have hf : k ≤ ⌊y⌋ := Int.le_floor.mpr h
  unfold roundHalfEven
  split_ifs <;> omega

theorem roundDouble_pos {x : ℚ} (hx : 0 < x) : 0 < roundDouble x := by
  have hne : x ≠ 0 := ne_of_gt hx
  have hlog := Int.zpow_log_le_self (b := 2) (by norm_num) hx
  simp only [roundDouble, hne, if_false, abs_of_pos hx]
  set L := Int.log 2 x with hL
  have h2 : (0 : ℚ) < (2 : ℚ) ^ (L - 52) := by positivity
  have hy : (((2 : ℤ) ^ (52 : ℕ) : ℤ) : ℚ) ≤ x / (2 : ℚ) ^ (L - 52) := by
    have e1 : (((2 : ℤ) ^ (52 : ℕ) : ℤ) : ℚ) = (2 : ℚ) ^ (52 : ℤ) := by norm_num
    rw [le_div_iff₀ h2, e1, ← zpow_add₀ (by norm_num : (2 : ℚ) ≠ 0)]
    have : (52 : ℤ) + (L - 52) = L := by ring
    rw [this]
    exact_mod_cast hlog
  have := le_roundHalfEven hy
  have hpos : (0 : ℤ) < roundHalfEven (x / (2 : ℚ) ^ (L - 52)) :=
    lt_of_lt_of_le (by norm_num) this
  have : (0 : ℚ) < (roundHalfEven (x / (2 : ℚ) ^ (L - 52)) : ℚ) := by exact_mod_cast hpos
  positivity

theorem roundDouble_intCast {n : ℤ} (h0 : 0 < n) (h1 : n < 2 ^ 53) :
    roundDouble (n : ℚ) = n := by
  have hx : (0 : ℚ) < (n : ℚ) := by exact_mod_cast h0
  have hne : (n : ℚ) ≠ 0 := ne_of_gt hx
  have hlog := Int.zpow_log_le_self (b := 2) (R := ℚ) (by norm_num) hx
  simp only [roundDouble, hne, if_false, abs_of_pos hx]
  set L := Int.log 2 (n : ℚ) with hL
  have hL52 : L ≤ 52 := by
    by_contra hcon
    push_neg at hcon
    have h53 : (53 : ℤ) ≤ L := by omega
    have : (2 : ℚ) ^ (53 : ℤ) ≤ (2 : ℚ) ^ L := zpow_le_zpow_right₀ (by norm_num) h53
    have h3 : (2 : ℚ) ^ (53 : ℤ) ≤ (n : ℚ) := le_trans this (by exact_mod_cast hlog)
    have h4 : ((2 ^ 53 : ℤ) : ℚ) ≤ (n : ℚ) := by
      push_cast
      exact_mod_cast h3
    have : (2 ^ 53 : ℤ) ≤ n := by exact_mod_cast h4
    omega
  obtain ⟨k, hk⟩ : ∃ k : ℕ, L - 52 = -(k : ℤ) := ⟨(52 - L).toNat, by omega⟩
  rw [hk, zpow_neg, zpow_natCast, div_inv_eq_mul]
  have : (n : ℚ) * (2 : ℚ) ^ k = ((n * 2 ^ k : ℤ) : ℚ) := by push_cast; ring
  rw [this, roundHalfEven_intCast]
  push_cast
  field_simp

theorem roundDouble_lt_one {q m : ℤ} (hq : 0 < q) (hqm : q < m) (hm : m < 2 ^ 53) :
    roundDouble ((q : ℚ) / (m : ℚ)) < 1 := by
  have hmpos : (0 : ℚ) < (m : ℚ) := by exact_mod_cast (lt_trans hq hqm)
  have hx : (0 : ℚ) < (q : ℚ) / (m : ℚ) := div_pos (by exact_mod_cast hq) hmpos
  have hx1 : (q : ℚ) / (m : ℚ) < 1 := by
    rw [div_lt_one hmpos]; exact_mod_cast hqm
  have hne : (q : ℚ) / (m : ℚ) ≠ 0 := ne_of_gt hx
  have hlog := Int.zpow_log_le_self (b := 2) (R := ℚ) (by norm_num) hx
  have hlog2 := Int.lt_zpow_succ_log_self (b := 2) (R := ℚ) (by norm_num) ((q : ℚ) / (m : ℚ))
  simp only [roundDouble, hne, if_false, abs_of_pos hx]
  set x := (q : ℚ) / (m : ℚ) with hxdef
  set L := Int.log 2 x with hL
  push_cast at hlog hlog2
  have hLneg : L < 0 := by
    by_contra hcon
    push_neg at hcon
    have : (1 : ℚ) ≤ (2 : ℚ) ^ L := one_le_zpow₀ (by norm_num) hcon
    linarith
  have h2 : (0 : ℚ) < (2 : ℚ) ^ (L - 52) := by positivity
  have hy : x / (2 : ℚ) ^ (L - 52) ≤ (((2 : ℤ) ^ (53 : ℕ) - 1 : ℤ) : ℚ) ∨
      (L ≤ -2 ∧ x / (2 : ℚ) ^ (L - 52) ≤ (((2 : ℤ) ^ (53 : ℕ) : ℤ) : ℚ)) := by
    by_cases hcase : L ≤ -2
    · right
      refine ⟨hcase, ?_⟩
      have e1 : (((2 : ℤ) ^ (53 : ℕ) : ℤ) : ℚ) = (2 : ℚ) ^ (53 : ℤ) := by norm_num
      rw [div_le_iff₀ h2, e1, ← zpow_add₀ (by norm_num : (2 : ℚ) ≠ 0)]
      have : (53 : ℤ) + (L - 52) = L + 1 := by ring
      rw [this]
      exact le_of_lt hlog2
    · left
      have hLeq : L = -1 := by omega
      rw [hLeq]
      have h53 : (2 : ℚ) ^ ((-1 : ℤ) - 52) = 1 / 2 ^ (53 : ℕ) := by
        rw [show ((-1 : ℤ) - 52) = -((53 : ℕ) : ℤ) by norm_num, zpow_neg, zpow_natCast]
        simp
      rw [h53, div_div_eq_mul_div, div_one, hxdef, div_mul_eq_mul_div, div_le_iff₀ hmpos]
      have hq1 : q + 1 ≤ m := hqm
      have hq1' : (q : ℚ) + 1 ≤ (m : ℚ) := by exact_mod_cast hq1
      have hm' : (m : ℚ) ≤ 2 ^ 53 := by exact_mod_cast (le_of_lt hm)
      push_cast
      nlinarith
  rcases hy with hy | ⟨hL2, hy⟩
  · have hr := roundHalfEven_le hy
    have hr' : (roundHalfEven (x / (2 : ℚ) ^ (L - 52)) : ℚ) ≤ 2 ^ 53 - 1 := by exact_mod_cast hr
    have hle : (2 : ℚ) ^ (L - 52) ≤ (2 : ℚ) ^ (-53 : ℤ) :=
      zpow_le_zpow_right₀ (by norm_num) (by omega)
    have h53 : (2 : ℚ) ^ (-53 : ℤ) = 1 / 2 ^ 53 := by
      rw [zpow_neg]; norm_num
    calc (roundHalfEven (x / (2 : ℚ) ^ (L - 52)) : ℚ) * (2 : ℚ) ^ (L - 52)
        ≤ (2 ^ 53 - 1) * (2 : ℚ) ^ (L - 52) := by
          apply mul_le_mul_of_nonneg_right hr' (le_of_lt h2)
      _ ≤ (2 ^ 53 - 1) * (2 : ℚ) ^ (-53 : ℤ) := by
          apply mul_le_mul_of_nonneg_left hle (by norm_num)
      _ < 1 := by rw [h53]; norm_num
  · have hr := roundHalfEven_le hy
    have hr' : (roundHalfEven (x / (2 : ℚ) ^ (L - 52)) : ℚ) ≤ 2 ^ 53 := by exact_mod_cast hr
    have hle : (2 : ℚ) ^ (L - 52) ≤ (2 : ℚ) ^ (-54 : ℤ) :=
      zpow_le_zpow_right₀ (by norm_num) (by omega)
    have h54 : (2 : ℚ) ^ (-54 : ℤ) = 1 / 2 ^ 54 := by
      rw [zpow_neg]; norm_num
    calc (roundHalfEven (x / (2 : ℚ) ^ (L - 52)) : ℚ) * (2 : ℚ) ^ (L - 52)
        ≤ 2 ^ 53 * (2 : ℚ) ^ (L - 52) := by
          apply mul_le_mul_of_nonneg_right hr' (le_of_lt h2)
      _ ≤ 2 ^ 53 * (2 : ℚ) ^ (-54 : ℤ) := by
          apply mul_le_mul_of_nonneg_left hle (by norm_num)
      _ < 1 := by rw [h54]; norm_num

theorem truncToInt_intCast (n : ℤ) : truncToInt (n : ℚ) = n := by
  unfold truncToInt
  split_ifs <;> simp

theorem fmod_intCast {n m : ℤ} (hn : 0 ≤ n) (hm : 0 < m) :
    fmod (n : ℚ) (m : ℚ) = ((n % m : ℤ) : ℚ) := by
  have hq : (0 : ℚ) ≤ (n : ℚ) / (m : ℚ) :=
    div_nonneg (by exact_mod_cast hn) (by exact_mod_cast (le_of_lt hm))
  have hfl : ⌊(n : ℚ) / (m : ℚ)⌋ = n / m := by
    have := Rat.floor_intCast_div_natCast n m.toNat
    have hcast : ((m.toNat : ℕ) : ℤ) = m := Int.toNat_of_nonneg (le_of_lt hm)
    have hc2 : ((m.toNat : ℕ) : ℚ) = (m : ℚ) := by exact_mod_cast hcast
    rw [hc2, hcast] at this
    exact this
  unfold fmod truncToInt
  rw [if_pos hq, hfl, Int.emod_def]
  push_cast
  ring

/-! ### `randm` lemmas -/

theorem randm_step {s : ℤ} (h0 : 0 < s) (h1 : s < 2147483647) :
    (HallDisk.randm s).2 = (16807 * s) % 2147483647 := by
  have hprod : roundDouble ((16807 : ℚ) * (s : ℚ)) = ((16807 * s : ℤ) : ℚ) := by
    have := roundDouble_intCast (n := 16807 * s) (by omega) (by norm_num; omega)
    rw [← this]
    push_cast
    rfl
  simp only [HallDisk.randm]
  push_cast
  rw [hprod]
  have := fmod_intCast (n := 16807 * s) (m := 2147483647) (by omega) (by norm_num)
  push_cast at this
  push_cast
  rw [this]
  exact_mod_cast truncToInt_intCast _

theorem lehmer_ne_zero {s : ℤ} (h0 : 0 < s) (h1 : s < 2147483647) :
    0 < (16807 * s) % 2147483647 ∧ (16807 * s) % 2147483647 < 2147483647 := by
  refine ⟨?_, Int.emod_lt_of_pos _ (by norm_num)⟩
  have hnd : ¬ (2147483647 : ℤ) ∣ 16807 * s := by
    intro hd
    have hcop : IsCoprime (2147483647 : ℤ) 16807 := by
      rw [Int.isCoprime_iff_gcd_eq_one]
      norm_num
    have := hcop.dvd_of_dvd_mul_left hd
    have := Int.le_of_dvd h0 this
    omega
  rcases Int.emod_pos_of_not_dvd hnd with h | h
  · norm_num at h
  · exact h

theorem randmState_range {s : ℤ} (h0 : 0 < s) (h1 : s < 2147483647) (n : ℕ) :
    0 < HallDisk.randmState s n ∧ HallDisk.randmState s n < 2147483647 := by
  induction n with
  | zero => exact ⟨h0, h1⟩
  | succ k ih =>
    simp only [HallDisk.randmState]
    rw [randm_step ih.1 ih.2]
    exact lehmer_ne_zero ih.1 ih.2

theorem randmState_closed {s : ℤ} (h0 : 0 < s) (h1 : s < 2147483647) (n : ℕ) :
    HallDisk.randmState s n = (16807 ^ n * s) % 2147483647 := by
  induction n with
  | zero =>
    simp only [HallDisk.randmState, pow_zero, one_mul]
    exact (Int.emod_eq_of_lt (le_of_lt h0) h1).symm
  | succ k ih =>
    have hr := randmState_range h0 h1 k
    simp only [HallDisk.randmState]
    rw [randm_step hr.1 hr.2, ih, pow_succ, Int.mul_emod, Int.emod_emod_of_dvd _ (dvd_refl _),
      ← Int.mul_emod]
    congr 1
    ring

theorem shearingBox_randmState_eq (s : ℤ) (n : ℕ) :
    ShearingBox.randmState s n = HallDisk.randmState s n := by
  induction n with
  | zero => rfl
  | succ k ih =>
    simp only [ShearingBox.randmState, HallDisk.randmState, ih]
    rfl

theorem powMod_eq (m : ℕ) : ∀ (fuel b e : ℕ), e < 2 ^ fuel → powMod m fuel b e = b ^ e % m := by
  intro fuel
  induction fuel with
  | zero =>
    intro b e h
    have : e = 0 := by simpa using h
    subst this
    simp [powMod]
  | succ fuel ih =>
    intro b e h
    unfold powMod
    by_cases h0 : e = 0
    · simp [h0]
    · have hhalf : e / 2 < 2 ^ fuel := by
        rw [Nat.div_lt_iff_lt_mul (by norm_num)]
        rw [pow_succ] at h
        exact h
      have hsq : (b * b % m) ^ (e / 2) % m = (b * b) ^ (e / 2) % m := by
        rw [Nat.pow_mod, Nat.mod_mod, ← Nat.pow_mod]
      rw [if_neg h0, ih _ _ hhalf, hsq]
      by_cases h2 : e % 2 = 0
      · rw [if_pos h2]
        have he : e = 2 * (e / 2) := by omega
        conv_rhs => rw [he, pow_mul]
        rw [pow_two]
      · rw [if_neg h2]
        have he : e = 2 * (e / 2) + 1 := by omega
        conv_rhs => rw [he, pow_succ, pow_mul, pow_two, Nat.mul_comm]
        rw [Nat.mul_mod, Nat.mod_mod, ← Nat.mul_mod]

theorem prime_mersenne31 : Nat.Prime 2147483647 := by
  have hpow : ∀ e : ℕ, e < 2 ^ 31 →
      ((7 : ZMod 2147483647) ^ e = ((powMod 2147483647 31 7 e : ℕ) : ZMod 2147483647)) := by
    intro e he
    rw [powMod_eq _ _ _ _ he, ZMod.natCast_mod]
    push_cast
    rfl
  have hne : ∀ r : ℕ, r < 2147483647 → r ≠ 1 → ((r : ℕ) : ZMod 2147483647) ≠ 1 := by
    intro r hr hr1 h
    have h2 : ((r : ℕ) : ZMod 2147483647) = ((1 : ℕ) : ZMod 2147483647) := by
      rw [h]; simp
    rw [ZMod.natCast_eq_natCast_iff'] at h2
    rw [Nat.mod_eq_of_lt hr] at h2
    norm_num at h2
    exact hr1 h2
  apply lucas_primality 2147483647 7
  · rw [hpow _ (by norm_num)]
    have : powMod 2147483647 31 7 (2147483647 - 1) = 1 := by decide
    rw [this]
    simp
  · intro q hq hdvd
    have hfact : (2147483647 - 1 : ℕ) = 2 * 3 ^ 2 * 7 * 11 * 31 * 151 * 331 := by norm_num
    rw [hfact] at hdvd
    have hq2 : q = 2 ∨ q = 3 ∨ q = 7 ∨ q = 11 ∨ q = 31 ∨ q = 151 ∨ q = 331 := by
      rcases (Nat.Prime.dvd_mul hq).mp hdvd with h | h
      · rcases (Nat.Prime.dvd_mul hq).mp h with h | h
        · rcases (Nat.Prime.dvd_mul hq).mp h with h | h
          · rcases (Nat.Prime.dvd_mul hq).mp h with h | h
            · rcases (Nat.Prime.dvd_mul hq).mp h with h | h
              · rcases (Nat.Prime.dvd_mul hq).mp h with h | h
                · exact Or.inl ((Nat.prime_dvd_prime_iff_eq hq (by norm_num)).mp h)
                · have := Nat.Prime.dvd_of_dvd_pow hq h
                  exact Or.inr (Or.inl ((Nat.prime_dvd_prime_iff_eq hq (by norm_num)).mp this))
              · exact Or.inr (Or.inr (Or.inl ((Nat.prime_dvd_prime_iff_eq hq (by norm_num)).mp h)))
            · exact Or.inr (Or.inr (Or.inr (Or.inl
                ((Nat.prime_dvd_prime_iff_eq hq (by norm_num)).mp h))))
          · exact Or.inr (Or.inr (Or.inr (Or.inr (Or.inl
              ((Nat.prime_dvd_prime_iff_eq hq (by norm_num)).mp h)))))
        · exact Or.inr (Or.inr (Or.inr (Or.inr (Or.inr (Or.inl
            ((Nat.prime_dvd_prime_iff_eq hq (by norm_num)).mp h))))))
      · exact Or.inr (Or.inr (Or.inr (Or.inr (Or.inr (Or.inr
          ((Nat.prime_dvd_prime_iff_eq hq (by norm_num)).mp h))))))
    rcases hq2 with rfl | rfl | rfl | rfl | rfl | rfl | rfl
    all_goals
      rw [hpow _ (by norm_num)]
      apply hne
      · decide
      · decide

/-! ### Input lemmas -/

theorem mapFind_mapSet_self {β : Type} (m : List (String × β)) (k : String) (v : β) :
    mapFind (mapSet m k v) k = some v := by
  induction m with
  | nil => simp [mapSet, mapFind]
  | cons p rest ih =>
    obtain ⟨k1, v1⟩ := p
    by_cases h : k1 = k
    · simp [mapSet, mapFind, h]
    · simp [mapSet, mapFind, h, ih]

theorem Input.checkEntry_pushBack (inp : Input) (b e s : String) :
    (inp.pushBack b e s).CheckEntry b e
      = ((mapAt [] (mapAt [] inp.inputParameters b) e).length : ℤ) + 1 := by
  simp [Input.CheckEntry, Input.pushBack, mapFind_mapSet_self]

theorem Input.fetch_pushBack (inp : Input) (b e s : String) :
    (inp.pushBack b e s).fetch b e ((mapAt [] (mapAt [] inp.inputParameters b) e).length : ℤ)
      = some s := by
  simp [Input.fetch, Input.pushBack, mapAt, mapFind_mapSet_self]

theorem Input.mapAt_of_checkEntry_neg (inp : Input) (b e : String)
    (h : inp.CheckEntry b e < 0) : mapAt [] (mapAt [] inp.inputParameters b) e = [] := by
  unfold Input.CheckEntry at h
  unfold mapAt
  cases hb : mapFind inp.inputParameters b with
  | none => simp [mapFind]
  | some block =>
    simp only [hb] at h
    cases he : mapFind block e with
    | none => simp [he]
    | some params =>
      simp only [he] at h
      omega

theorem Input.fetch_eq_stored (inp : Input) (b e : String) (num : ℤ) :
    inp.fetch b e num = inp.stored b e num := by
  unfold Input.fetch Input.stored mapAt
  cases hb : mapFind inp.inputParameters b with
  | none => simp [mapFind]
  | some block =>
    cases he : mapFind block e with
    | none => simp [he]
    | some params => simp [he]

theorem Input.stored_isSome_iff (inp : Input) (b e : String) (num : ℤ) (h0 : 0 ≤ num) :
    (inp.stored b e num).isSome ↔ num < inp.CheckEntry b e := by
  unfold Input.stored Input.CheckEntry
  cases hb : mapFind inp.inputParameters b with
  | none => simp; omega
  | some block =>
    cases he : mapFind block e with
    | none => simp [he]; omega
    | some params =>
      simp only [he, h0, if_true]
      rw [Option.isSome_iff_exists]
      constructor
      · rintro ⟨s, hs⟩
        have := (List.getElem?_eq_some_iff.mp hs).1
        omega
      · intro h
        have hlt : num.toNat < params.length := by omega
        exact ⟨params[num.toNat], List.getElem?_eq_getElem hlt⟩

theorem decimalFold_none (cs : List Char) :
    cs.foldl (fun acc c => match acc with
      | none => none
      | some n => if c.isDigit then some (n * 10 + (c.toNat - 48)) else none)
      (none : Option ℕ) = none := by
  induction cs with
  | nil => rfl
  | cons c cs ih => simpa using ih

theorem digitChar_isDigit (d : ℕ) (h : d < 10) :
    (Nat.digitChar d).isDigit = true ∧ (Nat.digitChar d).toNat - 48 = d := by
  interval_cases d <;> decide

theorem decimalFold_toDigitsCore (fuel : ℕ) : ∀ (n : ℕ) (ds : List Char), n < fuel →
    (Nat.toDigitsCore 10 fuel n ds).foldl (fun acc c => match acc with
      | none => none
      | some n => if c.isDigit then some (n * 10 + (c.toNat - 48)) else none) (some 0)
    = ds.foldl (fun acc c => match acc with
      | none => none
      | some n => if c.isDigit then some (n * 10 + (c.toNat - 48)) else none) (some n) := by
  induction fuel with
  | zero => intro n ds h; omega
  | succ fuel ih =>
    intro n ds h
    have hd := digitChar_isDigit (n % 10) (Nat.mod_lt _ (by norm_num))
    unfold Nat.toDigitsCore
    by_cases h0 : n / 10 = 0
    · simp only [h0, if_true, List.foldl_cons, hd.1, hd.2, zero_mul, zero_add]
      have : n % 10 = n := Nat.mod_eq_of_lt (by omega)
      rw [this]
    · simp only [h0, if_false]
      rw [ih (n / 10) _ (by omega)]
      simp only [List.foldl_cons, hd.1, hd.2, if_true]
      have : n / 10 * 10 + n % 10 = n := by omega
      rw [this]

theorem decimalValue_toDigits (n : ℕ) : decimalValue (Nat.toDigits 10 n) = some n := by
  unfold decimalValue Nat.toDigits
  rw [decimalFold_toDigitsCore (n + 1) n [] (by omega)]
  rfl

theorem decimalValue_head_ne_minus (cs : List Char) (n : ℕ) (h : decimalValue cs = some n) :
    cs.head? ≠ some '-' := by
  intro hh
  cases cs with
  | nil => simp at hh
  | cons c cs =>
    simp only [List.head?_cons, Option.some.injEq] at hh
    subst hh
    unfold decimalValue at h
    simp only [List.foldl_cons] at h
    have : ('-' : Char).isDigit = false := by decide
    simp only [this, Bool.false_eq_true, if_false] at h
    rw [decimalFold_none] at h
    exact absurd h (by simp)

theorem readInteger_toString (n : ℤ) : readInteger (toString n) = some n := by
  cases n with
  | ofNat m =>
    have hdata : (toString (Int.ofNat m)).data = Nat.toDigits 10 m := rfl
    unfold readInteger
    rw [hdata, if_neg (decimalValue_head_ne_minus _ m (decimalValue_toDigits m)),
      decimalValue_toDigits]
    rfl
  | negSucc m =>
    have hdata : (toString (Int.negSucc m)).data = '-' :: Nat.toDigits 10 (m + 1) := rfl
    unfold readInteger
    rw [hdata]
    simp only [List.head?_cons, if_true, List.tail_cons, decimalValue_toDigits, Option.map_some']
    rfl

/-! ### Boundary loop lemmas -/

open MachReflection

theorem x2BegBody_apply (x1 : ℕ → ℚ) (c : Inflow) (jend : ℕ) (V : Array4D) (k j i : ℕ)
    (hj : j < jend) (v : Var) (k1 j1 i1 : ℕ) :
    x2BegBody x1 c jend V k j i v k1 j1 i1
      = if k1 = k ∧ j1 = j ∧ i1 = i ∧ v ≠ .VX3 then target x1 c jend V v k j i
        else V v k1 j1 i1 := by
  have hne : 2 * jend - j - 1 ≠ j := by omega
  unfold x2BegBody target
  by_cases hx : x1 i < roundDouble (1 / 6)
  · simp only [hx, if_true]
    cases v <;> simp [assign]
  · simp only [hx, if_false]
    cases v <;> simp [assign, hne]

theorem runLoop_x2Beg (x1 : ℕ → ℚ) (c : Inflow) (jend : ℕ) (Vc : Array4D) :
    ∀ (order : List (ℕ × ℕ × ℕ)) (V : Array4D),
      (∀ p ∈ order, p.2.1 < jend) →
      (∀ v k j i, jend ≤ j → V v k j i = Vc v k j i) →
      ∀ v k j i, runLoop order (x2BegBody x1 c jend) V v k j i
        = if (k, j, i) ∈ order ∧ v ≠ .VX3 then target x1 c jend Vc v k j i else V v k j i := by
  intro order
  induction order with
  | nil => intro V _ _ v k j i; simp [runLoop]
  | cons p rest ih =>
    intro V hord hV v k j i
    obtain ⟨pk, pj, pi⟩ := p
    have hpj : pj < jend := hord (pk, pj, pi) (List.mem_cons_self _ _)
    have hV1 : ∀ v k j i, jend ≤ j → x2BegBody x1 c jend V pk pj pi v k j i = Vc v k j i := by
      intro v k j i hj
      rw [x2BegBody_apply x1 c jend V pk pj pi hpj, if_neg (by omega)]
      exact hV v k j i hj
    have htarget : ∀ v, target x1 c jend V v pk pj pi = target x1 c jend Vc v pk pj pi
        ∨ v = .VX3 := by
      intro v
      have hsrc : jend ≤ 2 * jend - pj - 1 := by omega
      unfold target
      cases v <;> simp [hV _ _ _ _ hsrc]
    have hrest : ∀ p ∈ rest, p.2.1 < jend := fun p hp => hord p (List.mem_cons_of_mem _ hp)
    have := ih (x2BegBody x1 c jend V pk pj pi) hrest hV1 v k j i
    simp only [runLoop, List.foldl_cons] at this ⊢
    rw [this, x2BegBody_apply x1 c jend V pk pj pi hpj]
    by_cases hv : v = .VX3
    · subst hv; simp
    · by_cases hmem : (k, j, i) ∈ rest
      · simp [hmem, hv]
      · by_cases hp : k = pk ∧ j = pj ∧ i = pi
        · obtain ⟨rfl, rfl, rfl⟩ := hp
          rcases htarget v with h | h
          · simp [hmem, hv, h]
          · exact absurd h hv
        · have hne : (k, j, i) ≠ (pk, pj, pi) := by
            intro h
            simp only [Prod.mk.injEq] at h
            exact hp h
          have hp2 : ¬ (k = pk ∧ j = pj ∧ i = pi ∧ ¬ v = .VX3) := fun h => hp ⟨h.1, h.2.1, h.2.2.1⟩
          simp only [List.mem_cons, hmem, hne, or_self, false_and, if_false, hp2]

theorem mem_loopIndices (kb ke jb je ib ie k j i : ℕ) :
    (k, j, i) ∈ loopIndices kb ke jb je ib ie
      ↔ (kb ≤ k ∧ k < ke) ∧ (jb ≤ j ∧ j < je) ∧ (ib ≤ i ∧ i < ie) := by
  simp only [loopIndices, List.mem_flatMap, List.mem_map, List.mem_range', Prod.mk.injEq]
  constructor
  · rintro ⟨k1, ⟨a, ha, rfl⟩, j1, ⟨b, hb, rfl⟩, i1, ⟨c, hc, rfl⟩, rfl, rfl, rfl⟩
    omega
  · rintro ⟨hk, hj, hi⟩
    exact ⟨k, ⟨k - kb, by omega, by omega⟩, j, ⟨j - jb, by omega, by omega⟩, i,
      ⟨i - ib, by omega, by omega⟩, rfl, rfl, rfl⟩

open OutputDump

/-! ### Dump file lemmas -/


theorem encodeLE_length (w n : ℕ) : (encodeLE w n).length = w := by
  simp [encodeLE]

theorem encodeLE_succ (w n : ℕ) : encodeLE (w + 1) n = n % 256 :: encodeLE w (n / 256) := by
  simp only [encodeLE, List.range_succ_eq_map, List.map_cons, List.map_map, pow_zero,
    Nat.div_one]
  congr 1
  apply List.map_congr_left
  intro b _
  simp only [Function.comp, pow_succ, Nat.div_div_eq_div_mul]
  rw [Nat.mul_comm]

theorem decodeLE_encodeLE (w : ℕ) : ∀ n : ℕ, n < 256 ^ w → decodeLE (encodeLE w n) = n := by
  induction w with
  | zero => intro n h; simp at h; subst h; rfl
  | succ w ih =>
    intro n h
    have h2 : n / 256 < 256 ^ w := by
      rw [Nat.div_lt_iff_lt_mul (by norm_num)]
      rw [pow_succ] at h
      exact h
    rw [encodeLE_succ]
    have := ih (n / 256) h2
    simp only [decodeLE, List.foldr_cons] at this ⊢
    rw [this]
    omega

theorem writeAt_length (file : List ℕ) (pos : ℕ) (bs : List ℕ) :
    (writeAt file pos bs).length = max file.length (pos + bs.length) := by
  simp only [writeAt, List.length_append, List.length_take, List.length_replicate,
    List.length_drop]
  omega

theorem writeAt_getElem? (file : List ℕ) (pos : ℕ) (bs : List ℕ) (p : ℕ) :
    (writeAt file pos bs)[p]? =
      if p < pos then (if p < file.length then file[p]? else some 0)
      else if p < pos + bs.length then bs[p - pos]? else file[p]? := by
  have hlen1 : ((file ++ List.replicate (pos - file.length) 0).take pos).length = pos := by
    simp only [List.length_take, List.length_append, List.length_replicate]
    omega
  unfold writeAt
  by_cases h1 : p < pos
  · rw [if_pos h1, List.append_assoc, List.getElem?_append_left (by omega),
      List.getElem?_take_of_lt h1]
    by_cases h2 : p < file.length
    · rw [if_pos h2, List.getElem?_append_left h2]
    · rw [if_neg h2, List.getElem?_append_right (by omega), List.getElem?_replicate]
      rw [if_pos (by omega)]
  · rw [if_neg h1, List.append_assoc, List.getElem?_append_right (by omega), hlen1]
    by_cases h2 : p < pos + bs.length
    · rw [if_pos h2, List.getElem?_append_left (by omega)]
    · rw [if_neg h2, List.getElem?_append_right (by omega), List.getElem?_drop]
      congr 1
      omega

theorem writeAt_end (file bs : List ℕ) : writeAt file file.length bs = file ++ bs := by
  simp [writeAt]

theorem readAt_append (A B C : List ℕ) : readAt (A ++ B ++ C) A.length B.length = some B := by
  simp [readAt]

theorem flatMap_encodeLE_length (w : ℕ) (xs : List ℕ) :
    (xs.flatMap (encodeLE w)).length = w * xs.length := by
  induction xs with
  | nil => simp
  | cons x xs ih =>
    simp only [List.flatMap_cons, List.length_append, encodeLE_length, ih, List.length_cons]
    ring

theorem readAt_chunk (w : ℕ) (xs : List ℕ) : ∀ (A C : List ℕ) (n x : ℕ), xs[n]? = some x →
    readAt (A ++ xs.flatMap (encodeLE w) ++ C) (A.length + w * n) w = some (encodeLE w x) := by
  induction xs with
  | nil => intro A C n x h; simp at h
  | cons y ys ih =>
    intro A C n x h
    cases n with
    | zero =>
      simp only [List.getElem?_cons_zero, Option.some.injEq] at h
      subst h
      have := readAt_append A (encodeLE w y) (ys.flatMap (encodeLE w) ++ C)
      simp only [encodeLE_length] at this
      simpa [List.flatMap_cons, List.append_assoc] using this
    | succ n =>
      simp only [List.getElem?_cons_succ] at h
      have := ih (A ++ encodeLE w y) C n x h
      simp only [List.length_append, encodeLE_length] at this
      have hpos : A.length + w * (n + 1) = A.length + w + w * n := by ring
      rw [hpos]
      simpa [List.flatMap_cons, List.append_assoc] using this

theorem readElements_ok {ι : Type} (file : List ℕ) (size : ℕ) (pos val : ι → ℕ) :
    ∀ idxs : List ι,
      (∀ i ∈ idxs, readAt file (pos i) size = some (encodeLE size (val i))) →
      (∀ i ∈ idxs, val i < 256 ^ size) →
      readElements file size (idxs.map pos) = .ok (idxs.map val) := by
  intro idxs
  induction idxs with
  | nil => intro _ _; rfl
  | cons i rest ih =>
    intro hread hval
    have h1 := hread i (List.mem_cons_self _ _)
    have h2 := ih (fun j hj => hread j (List.mem_cons_of_mem _ hj))
      (fun j hj => hval j (List.mem_cons_of_mem _ hj))
    simp only [List.map_cons, readElements, h1, h2,
      decodeLE_encodeLE size _ (hval i (List.mem_cons_self _ _))]

theorem writeString_length (name : String) : (WriteString name).length = nameSize := by
  simp [WriteString]

theorem headerBytes_length (d : FieldDescriptor) : (headerBytes d).length = headerSize d := by
  simp only [headerBytes, headerSize, List.length_append, writeString_length, encodeLE_length,
    flatMap_encodeLE_length]

theorem takeWhile_append_zeros (cs : List ℕ) (n : ℕ) (h : ∀ c ∈ cs, c ≠ 0) :
    (cs ++ List.replicate n 0).takeWhile (fun b => decide (b ≠ 0)) = cs := by
  induction cs with
  | nil =>
    cases n with
    | zero => rfl
    | succ n => simp [List.replicate_succ]
  | cons c cs ih =>
    have hc : c ≠ 0 := h c (List.mem_cons_self _ _)
    simp only [List.cons_append, List.takeWhile_cons, hc, ne_eq, not_false_eq_true,
      decide_True, if_true]
    rw [ih (fun x hx => h x (List.mem_cons_of_mem _ hx))]

theorem decodeName_writeString (name : String) (hlen : name.data.length ≤ nameSize)
    (hchars : ∀ c ∈ name.data, 0 < c.toNat ∧ c.toNat < 128) :
    decodeName (WriteString name) = name := by
  have htake : WriteString name
      = name.data.map Char.toNat ++ List.replicate (nameSize - name.data.length) 0 := by
    unfold WriteString
    have hl : (name.toList.map Char.toNat).length ≤ nameSize := by simpa using hlen
    rw [List.take_append_eq_append_take, List.take_of_length_le hl, List.take_replicate]
    simp [String.toList]
  have hne : ∀ c ∈ name.data.map Char.toNat, c ≠ 0 := by
    intro c hc
    obtain ⟨ch, hch, rfl⟩ := List.mem_map.mp hc
    have := (hchars ch hch).1
    omega
  unfold decodeName
  rw [htake, takeWhile_append_zeros _ _ hne, List.map_map]
  have : (Char.ofNat ∘ Char.toNat) = id := by
    funext c
    simp [Char.ofNat_toNat]
  rw [this, List.map_id]
theorem readAt_mid (file A B C : List ℕ) (pos n : ℕ) (hfile : file = A ++ B ++ C)
    (hpos : pos = A.length) (hn : n = B.length) : readAt file pos n = some B := by
  subst hfile hpos hn
  exact readAt_append A B C

theorem map_getD_range (xs : List ℕ) :
    (List.range xs.length).map (fun n => xs.getD n 0) = xs := by
  apply List.ext_getElem
  · simp
  · intro n h1 h2
    simp [List.getD_eq_getElem?_getD, List.getElem?_eq_getElem h2]

theorem ofTag_tag_toNat (t : DataType) : DataType.ofTag ((t.tag.toNat : ℕ) : ℤ) = some t := by
  cases t <;> rfl

theorem tag_toNat_lt (t : DataType) : t.tag.toNat < 256 ^ 4 := by
  cases t <;> decide

theorem ravel_lt {G0 G1 G2 k j i : ℕ} (hk : k < G0) (hj : j < G1) (hi : i < G2) :
    (k * G1 + j) * G2 + i < G0 * G1 * G2 := by
  have h1 : k * G1 + j + 1 ≤ G0 * G1 := by
    have : (k + 1) * G1 ≤ G0 * G1 := Nat.mul_le_mul_right _ hk
    rw [Nat.add_mul, Nat.one_mul] at this
    omega
  have h2 : (k * G1 + j + 1) * G2 ≤ G0 * G1 * G2 := Nat.mul_le_mul_right _ h1
  rw [Nat.add_mul, Nat.one_mul] at h2
  omega

theorem mem_localIndices (L : SubdomainLayout) (a b c : ℕ) :
    (a, b, c) ∈ L.localIndices
      ↔ a < L.localExtent.1 ∧ b < L.localExtent.2.1 ∧ c < L.localExtent.2.2 := by
  simp only [SubdomainLayout.localIndices, List.mem_flatMap, List.mem_map, List.mem_range,
    Prod.mk.injEq]
  constructor
  · rintro ⟨a1, ha, b1, hb, c1, hc, rfl, rfl, rfl⟩
    exact ⟨ha, hb, hc⟩
  · rintro ⟨ha, hb, hc⟩
    exact ⟨a, ha, b, hb, c, hc, rfl, rfl, rfl⟩

theorem elementOffset_lt (L : SubdomainLayout) (hw : L.within) (p : ℕ × ℕ × ℕ)
    (hp : p ∈ L.localIndices) :
    L.elementOffset p.1 p.2.1 p.2.2
      < L.globalExtent.1 * L.globalExtent.2.1 * L.globalExtent.2.2 := by
  obtain ⟨a, b, c⟩ := p
  obtain ⟨ha, hb, hc⟩ := (mem_localIndices L a b c).mp hp
  obtain ⟨h0, h1, h2⟩ := hw
  show ((L.localOffset.1 + a) * L.globalExtent.2.1 + (L.localOffset.2.1 + b))
      * L.globalExtent.2.2 + (L.localOffset.2.2 + c) < _
  exact ravel_lt (by omega) (by omega) (by omega)

theorem recordBytes_length (G : ℕ × ℕ × ℕ) (f : GlobalField) (hf : f.wellFormed G) :
    (recordBytes f).length = headerSize f.descriptor + payloadSize f.descriptor := by
  simp only [recordBytes, List.length_append, headerBytes_length, flatMap_encodeLE_length,
    payloadSize, hf.2.2.2.2.1]

theorem readNextFieldProperties_record (G : ℕ × ℕ × ℕ) (f : GlobalField)
    (hf : f.wellFormed G) (pre post : List ℕ) :
    ReadNextFieldProperties (pre ++ recordBytes f ++ post) pre.length = .ok f.descriptor := by
  obtain ⟨hlen, hchars, hrank, hdims, -, -, -⟩ := hf
  set d := f.descriptor with hd
  set payload := f.data.flatMap (encodeLE (elementSize d.elementType)) with hpay
  set file := pre ++ recordBytes f ++ post with hfile
  have hname : readAt file pre.length nameSize = some (WriteString d.name) :=
    readAt_mid file pre (WriteString d.name)
      (encodeLE 4 d.elementType.tag.toNat ++ encodeLE 4 d.shape.length
        ++ d.shape.flatMap (encodeLE 4) ++ payload ++ post) _ _
      (by simp [hfile, recordBytes, headerBytes, List.append_assoc, hpay, hd]) rfl
      (writeString_length _).symm
  have htag : readAt file (pre.length + nameSize) 4
      = some (encodeLE 4 d.elementType.tag.toNat) :=
    readAt_mid file (pre ++ WriteString d.name) (encodeLE 4 d.elementType.tag.toNat)
      (encodeLE 4 d.shape.length ++ d.shape.flatMap (encodeLE 4) ++ payload ++ post) _ _
      (by simp [hfile, recordBytes, headerBytes, List.append_assoc, hpay, hd])
      (by simp [writeString_length]) (encodeLE_length _ _).symm
  have hrk : readAt file (pre.length + nameSize + 4) 4 = some (encodeLE 4 d.shape.length) :=
    readAt_mid file (pre ++ WriteString d.name ++ encodeLE 4 d.elementType.tag.toNat)
      (encodeLE 4 d.shape.length) (d.shape.flatMap (encodeLE 4) ++ payload ++ post) _ _
      (by simp [hfile, recordBytes, headerBytes, List.append_assoc, hpay, hd])
      (by simp only [List.length_append, writeString_length, encodeLE_length])
      (encodeLE_length _ _).symm
  have hshape : readElements file 4
      ((List.range d.shape.length).map fun n => pre.length + nameSize + 8 + 4 * n)
      = .ok d.shape := by
    have := readElements_ok file 4 (fun n => pre.length + nameSize + 8 + 4 * n)
      (fun n => d.shape.getD n 0) (List.range d.shape.length) ?_ ?_
    · rw [this, map_getD_range]
    · intro n hn
      have hn2 : n < d.shape.length := List.mem_range.mp hn
      have hget : d.shape[n]? = some (d.shape.getD n 0) := by
        simp [List.getD_eq_getElem?_getD, List.getElem?_eq_getElem hn2]
      have := readAt_chunk 4 d.shape
        (pre ++ WriteString d.name ++ encodeLE 4 d.elementType.tag.toNat
          ++ encodeLE 4 d.shape.length) (payload ++ post) n _ hget
      simp only [List.length_append, writeString_length, encodeLE_length] at this
      have hfile2 : file = pre ++ WriteString d.name ++ encodeLE 4 d.elementType.tag.toNat
          ++ encodeLE 4 d.shape.length ++ d.shape.flatMap (encodeLE 4) ++ (payload ++ post) := by
        simp [hfile, recordBytes, headerBytes, List.append_assoc, hpay, hd]
      rw [hfile2]
      beta_reduce
      have hp : pre.length + nameSize + 8 + 4 * n = pre.length + nameSize + 4 + 4 + 4 * n := by
        ring
      rw [hp]
      exact this
    · intro n hn
      have hn2 : n < d.shape.length := List.mem_range.mp hn
      have : d.shape.getD n 0 ∈ d.shape := by
        simp [List.getD_eq_getElem?_getD, List.getElem?_eq_getElem hn2]
      have := hdims _ this
      beta_reduce
      omega
  have hdr : decodeLE (encodeLE 4 d.shape.length) = d.shape.length :=
    decodeLE_encodeLE 4 _ (by omega)
  have hdt : decodeLE (encodeLE 4 d.elementType.tag.toNat) = d.elementType.tag.toNat :=
    decodeLE_encodeLE 4 _ (tag_toNat_lt _)
  simp only [ReadNextFieldProperties, hname, htag, hrk, hdr, hshape, hdt, ofTag_tag_toNat,
    decodeName_writeString d.name hlen hchars]
theorem view_descriptor (L : SubdomainLayout) (f : GlobalField) :
    (f.view L).descriptor = f.descriptor := by
  unfold GlobalField.view
  split_ifs <;> rfl

theorem getD_mem_of_lt (xs : List ℕ) (n : ℕ) (h : n < xs.length) :
    xs[n]? = some (xs.getD n 0) ∧ xs.getD n 0 ∈ xs := by
  constructor <;> simp [List.getD_eq_getElem?_getD, List.getElem?_eq_getElem h]

theorem view_strategy (L : SubdomainLayout) (f : GlobalField) :
    (f.view L).strategy = if f.distributed = true then .distributed L else .serial := by
  unfold GlobalField.view
  split_ifs <;> rfl

theorem readRecord_record (G : ℕ × ℕ × ℕ) (f : GlobalField) (hf : f.wellFormed G)
    (L : SubdomainLayout) (hLG : L.globalExtent = G) (hLw : L.within)
    (b : FieldBinding) (hbd : b.descriptor = f.descriptor)
    (hbs : b.strategy = (f.view L).strategy) (pre post : List ℕ) :
    readRecord (pre ++ recordBytes f ++ post) pre.length b
      = .ok (f.view L, pre.length + (recordBytes f).length) := by
  have hhead := readNextFieldProperties_record G f hf pre post
  have hreclen := recordBytes_length G f hf
  obtain ⟨-, -, -, -, hcount, hvals, hdist⟩ := hf
  have hfile : pre ++ recordBytes f ++ post
      = (pre ++ headerBytes f.descriptor)
        ++ f.data.flatMap (encodeLE (elementSize f.descriptor.elementType)) ++ post := by
    simp [recordBytes, List.append_assoc]
  have hbase : (pre ++ headerBytes f.descriptor).length
      = pre.length + headerSize f.descriptor := by
    simp [headerBytes_length]
  obtain ⟨bd, bs, bb⟩ := b
  simp only at hbd hbs
  subst hbd
  rw [view_strategy] at hbs
  simp only [readRecord, hhead, ne_eq, not_true_eq_false, or_self, if_false, hreclen,
    ← Nat.add_assoc]
  unfold GlobalField.view
  by_cases hd : f.distributed = true
  · simp only [hd, if_true] at hbs ⊢
    subst hbs
    have hshape := hdist hd
    have hcompat : L.compatible f.descriptor.shape := by
      refine ⟨?_, hLw⟩
      rw [hshape, hLG]
    have hN : f.data.length
        = L.globalExtent.1 * L.globalExtent.2.1 * L.globalExtent.2.2 := by
      rw [hcount, FieldDescriptor.elementCount, hshape, hLG]
      simp [Nat.mul_assoc]
    have hread := readElements_ok (pre ++ recordBytes f ++ post)
      (elementSize f.descriptor.elementType)
      (fun p : ℕ × ℕ × ℕ => pre.length + headerSize f.descriptor
        + L.resolveOffset (elementSize f.descriptor.elementType) p.1 p.2.1 p.2.2)
      (fun p : ℕ × ℕ × ℕ => f.data.getD (L.elementOffset p.1 p.2.1 p.2.2) 0)
      L.localIndices ?_ ?_
    · simp only [if_pos hcompat, ReadDistributed, hread]
    · intro p hp
      have hlt := elementOffset_lt L hLw p hp
      rw [← hN] at hlt
      have := readAt_chunk (elementSize f.descriptor.elementType) f.data
        (pre ++ headerBytes f.descriptor) post _ _ (getD_mem_of_lt f.data _ hlt).1
      rw [hfile, ← hbase]
      exact this
    · intro p hp
      have hlt := elementOffset_lt L hLw p hp
      rw [← hN] at hlt
      exact hvals _ (getD_mem_of_lt f.data _ hlt).2
  · simp only [hd, Bool.false_eq_true, if_false] at hbs ⊢
    subst hbs
    have hread := readElements_ok (pre ++ recordBytes f ++ post)
      (elementSize f.descriptor.elementType)
      (fun g : ℕ => pre.length + headerSize f.descriptor
        + elementSize f.descriptor.elementType * g)
      (fun g : ℕ => f.data.getD g 0) (List.range f.descriptor.elementCount) ?_ ?_
    · simp only [ReadSerial, hread]
      rw [← hcount, map_getD_range]
    · intro g hg
      have hlt : g < f.data.length := by
        rw [hcount]
        exact List.mem_range.mp hg
      have := readAt_chunk (elementSize f.descriptor.elementType) f.data
        (pre ++ headerBytes f.descriptor) post _ _ (getD_mem_of_lt f.data _ hlt).1
      rw [hfile, ← hbase]
      exact this
    · intro g hg
      have hlt : g < f.data.length := by
        rw [hcount]
        exact List.mem_range.mp hg
      exact hvals _ (getD_mem_of_lt f.data _ hlt).2

theorem readFields_canon (G : ℕ × ℕ × ℕ) (L : SubdomainLayout) (hLG : L.globalExtent = G)
    (hLw : L.within) :
    ∀ (state : List GlobalField) (stale : List FieldBinding) (pre post : List ℕ),
      (∀ f ∈ state, f.wellFormed G) →
      stale.map (fun b => (b.descriptor, b.strategy))
        = (processDump state L).map (fun b => (b.descriptor, b.strategy)) →
      readFields (pre ++ state.flatMap recordBytes ++ post) pre.length stale
        = .ok (processDump state L) := by
  intro state
  induction state with
  | nil =>
    intro stale pre post _ hst
    simp only [processDump, List.map_nil, List.map_eq_nil_iff] at hst
    subst hst
    rfl
  | cons f rest ih =>
    intro stale pre post hwf hst
    cases stale with
    | nil => simp [processDump] at hst
    | cons b stale =>
      simp only [processDump, List.map_cons, List.cons.injEq, Prod.mk.injEq] at hst
      obtain ⟨⟨hbd, hbs⟩, hrest⟩ := hst
      rw [view_descriptor] at hbd
      have hrec := readRecord_record G f (hwf f (List.mem_cons_self _ _)) L hLG hLw b hbd hbs
        pre (rest.flatMap recordBytes ++ post)
      have hfile : pre ++ (f :: rest).flatMap recordBytes ++ post
          = pre ++ recordBytes f ++ (rest.flatMap recordBytes ++ post) := by
        simp [List.append_assoc]
      have hnext := ih stale (pre ++ recordBytes f) post
        (fun g hg => hwf g (List.mem_cons_of_mem _ hg)) hrest
      have hfile2 : pre ++ recordBytes f ++ rest.flatMap recordBytes ++ post
          = pre ++ recordBytes f ++ (rest.flatMap recordBytes ++ post) := by
        simp [List.append_assoc]
      rw [hfile2, List.length_append] at hnext
      rw [hfile]
      simp only [readFields, hrec, hnext, processDump, List.map_cons]
theorem readAt_getElem? (file : List ℕ) (pos n : ℕ) (bs : List ℕ)
    (h : readAt file pos n = some bs) :
    bs.length = n ∧ pos + n ≤ file.length ∧ ∀ b < n, file[pos + b]? = bs[b]? := by
  unfold readAt at h
  split_ifs at h with hle
  simp only [Option.some.injEq] at h
  subst h
  refine ⟨?_, hle, ?_⟩
  · simp only [List.length_take, List.length_drop]
    omega
  · intro b hb
    rw [List.getElem?_take_of_lt hb, List.getElem?_drop]

theorem unravel {G0 G1 G2 g : ℕ} (hg : g < G0 * G1 * G2) :
    ∃ k j i, k < G0 ∧ j < G1 ∧ i < G2 ∧ (k * G1 + j) * G2 + i = g := by
  have hG2 : 0 < G2 := by
    rcases Nat.eq_zero_or_pos G2 with h | h
    · subst h; simp at hg
    · exact h
  have hG1 : 0 < G1 := by
    rcases Nat.eq_zero_or_pos G1 with h | h
    · subst h; simp at hg
    · exact h
  have hr : g / G2 < G0 * G1 := by
    rw [Nat.div_lt_iff_lt_mul hG2]
    exact hg
  have hk : g / G2 / G1 < G0 := by
    rw [Nat.div_lt_iff_lt_mul hG1]
    exact hr
  refine ⟨g / G2 / G1, g / G2 % G1, g % G2, hk, Nat.mod_lt _ hG1, Nat.mod_lt _ hG2, ?_⟩
  have h1 : g / G2 / G1 * G1 + g / G2 % G1 = g / G2 := by
    rw [Nat.mul_comm]
    exact Nat.div_add_mod _ _
  rw [h1, Nat.mul_comm]
  exact Nat.div_add_mod _ _

theorem slot_split {size N q : ℕ} (hsize : 0 < size) (hq : q < size * N) :
    ∃ g b, g < N ∧ b < size ∧ q = size * g + b := by
  refine ⟨q / size, q % size, ?_, Nat.mod_lt _ hsize, (Nat.div_add_mod _ _).symm⟩
  rw [Nat.div_lt_iff_lt_mul hsize, Nat.mul_comm]
  exact hq

theorem agrees_writeAt (TT : List ℕ) (base size N : ℕ) (hTT : TT.length = base + size * N)
    (S : ℕ → Prop) (F : List ℕ) (hF : agrees TT base size N S F) (g : ℕ) (hg : g < N)
    (bs : List ℕ) (hlen : bs.length = size)
    (hbs : ∀ b < size, TT[base + size * g + b]? = bs[b]?) :
    agrees TT base size N (fun x => S x ∨ x = g) (writeAt F (base + size * g) bs) := by
  obtain ⟨h1, h2, h3, h4⟩ := hF
  have hslot : size * g + size ≤ size * N := by
    have : size * (g + 1) ≤ size * N := Nat.mul_le_mul_left _ hg
    rw [Nat.mul_succ] at this
    exact this
  refine ⟨?_, ?_, ?_, ?_⟩
  · rw [writeAt_length]; omega
  · rw [writeAt_length, hlen]; omega
  · intro p hp
    rw [writeAt_getElem?, if_pos (by omega), if_pos (by omega)]
    exact h3 p hp
  · intro x hx hxN b hb
    rw [writeAt_getElem?, hlen]
    by_cases hxg : x = g
    · subst hxg
      rw [if_neg (by omega), if_pos (by omega), hbs b hb]
      congr 1
      omega
    · have hSx : S x := by
        rcases hx with h | h
        · exact h
        · exact absurd h hxg
      have hold := h4 x hSx hxN b hb
      have hin : base + size * x + b < F.length := by
        by_contra hcon
        have hnone : F[base + size * x + b]? = none := List.getElem?_eq_none (by omega)
        have hsx : size * x + size ≤ size * N := by
          have : size * (x + 1) ≤ size * N := Nat.mul_le_mul_left _ hxN
          rw [Nat.mul_succ] at this
          exact this
        have hsome : base + size * x + b < TT.length := by omega
        rw [hnone] at hold
        have := List.getElem?_eq_getElem hsome
        rw [← hold] at this
        exact absurd this (by simp)
      rcases Nat.lt_or_gt_of_ne hxg with hlt | hgt
      · have : size * x + size ≤ size * g := by
          have : size * (x + 1) ≤ size * g := Nat.mul_le_mul_left _ hlt
          rw [Nat.mul_succ] at this
          exact this
        rw [if_pos (by omega), if_pos hin]
        exact hold
      · have : size * g + size ≤ size * x := by
          have : size * (g + 1) ≤ size * x := Nat.mul_le_mul_left _ hgt
          rw [Nat.mul_succ] at this
          exact this
        rw [if_neg (by omega), if_neg (by omega)]
        exact hold

theorem agrees_mono (TT : List ℕ) (base size N : ℕ) (S S2 : ℕ → Prop) (F : List ℕ)
    (hF : agrees TT base size N S F) (h : ∀ g, S2 g → S g) : agrees TT base size N S2 F :=
  ⟨hF.1, hF.2.1, hF.2.2.1, fun g hg => hF.2.2.2 g (h g hg)⟩

theorem agrees_all_eq (TT : List ℕ) (base size N : ℕ) (hsize : 0 < size)
    (hTT : TT.length = base + size * N) (S : ℕ → Prop) (F : List ℕ)
    (hF : agrees TT base size N S F) (hall : ∀ g < N, S g) : F = TT := by
  obtain ⟨h1, h2, h3, h4⟩ := hF
  apply List.ext_getElem?
  intro p
  by_cases hp : p < base
  · exact h3 p hp
  · by_cases hp2 : p < base + size * N
    · have hq0 : p - base < size * N := by omega
      obtain ⟨g, b, hg, hb, hq⟩ := slot_split hsize hq0
      have := h4 g (hall g hg) hg b hb
      have hpe : base + size * g + b = p := by omega
      rw [hpe] at this
      exact this
    · rw [List.getElem?_eq_none (by omega), List.getElem?_eq_none (by omega)]
theorem zip_map_self {α β : Type} (f : α → β) (l : List α) :
    l.zip (l.map f) = l.map fun p => (p, f p) := by
  induction l with
  | nil => rfl
  | cons x xs ih => simp [ih]

theorem scatter_agrees (TT : List ℕ) (base size N : ℕ) (hTT : TT.length = base + size * N)
    (L : SubdomainLayout) (data : List ℕ)
    (hT : ∀ g < N, ∀ b < size, TT[base + size * g + b]? = (encodeLE size (data.getD g 0))[b]?) :
    ∀ (idxs : List (ℕ × ℕ × ℕ)) (S : ℕ → Prop) (F : List ℕ),
      (∀ p ∈ idxs, L.elementOffset p.1 p.2.1 p.2.2 < N) →
      agrees TT base size N S F →
      agrees TT base size N
        (fun x => S x ∨ ∃ p ∈ idxs, L.elementOffset p.1 p.2.1 p.2.2 = x)
        (scatter L size base
          (idxs.map fun p => (p, data.getD (L.elementOffset p.1 p.2.1 p.2.2) 0)) F) := by
  intro idxs
  induction idxs with
  | nil =>
    intro S F _ hF
    exact agrees_mono TT base size N S _ F hF (by
      intro g hg
      rcases hg with h | ⟨p, hp, _⟩
      · exact h
      · simp at hp)
  | cons q rest ih =>
    intro S F hlt hF
    obtain ⟨a, b, c⟩ := q
    have hg : L.elementOffset a b c < N := hlt (a, b, c) (List.mem_cons_self _ _)
    have hstep := agrees_writeAt TT base size N hTT S F hF (L.elementOffset a b c) hg
      (encodeLE size (data.getD (L.elementOffset a b c) 0)) (encodeLE_length _ _)
      (hT _ hg)
    have := ih _ _ (fun p hp => hlt p (List.mem_cons_of_mem _ hp)) hstep
    simp only [List.map_cons, scatter, SubdomainLayout.resolveOffset]
    refine agrees_mono TT base size N _ _ _ this ?_
    intro g hg2
    rcases hg2 with h | ⟨p, hp, hpe⟩
    · exact Or.inl (Or.inl h)
    · rcases List.mem_cons.mp hp with h | h
      · subst h
        exact Or.inl (Or.inr hpe.symm)
      · exact Or.inr ⟨p, h, hpe⟩

theorem coverage (G : ℕ × ℕ × ℕ) (layouts : List SubdomainLayout)
    (hv : validDecomposition G layouts) (g : ℕ) (hg : g < G.1 * G.2.1 * G.2.2) :
    ∃ L ∈ layouts, ∃ p ∈ L.localIndices, L.elementOffset p.1 p.2.1 p.2.2 = g := by
  obtain ⟨k, j, i, hk, hj, hi, hkji⟩ := unravel hg
  have hone := hv.2 k hk j hj i hi
  have hpos : 0 < (layouts.filter fun L => decide (L.owns k j i)).length := by omega
  obtain ⟨L, hL⟩ := List.exists_mem_of_length_pos hpos
  rw [List.mem_filter] at hL
  obtain ⟨hLmem, hown⟩ := hL
  have hown2 : L.owns k j i := of_decide_eq_true hown
  obtain ⟨⟨h0a, h0b⟩, ⟨h1a, h1b⟩, ⟨h2a, h2b⟩⟩ := hown2
  have hLG := (hv.1 L hLmem).1
  refine ⟨L, hLmem, (k - L.localOffset.1, j - L.localOffset.2.1, i - L.localOffset.2.2), ?_, ?_⟩
  · rw [mem_localIndices]
    omega
  · show ((L.localOffset.1 + (k - L.localOffset.1)) * L.globalExtent.2.1
        + (L.localOffset.2.1 + (j - L.localOffset.2.1))) * L.globalExtent.2.2
        + (L.localOffset.2.2 + (i - L.localOffset.2.2)) = g
    rw [hLG, Nat.add_sub_cancel' h0a, Nat.add_sub_cancel' h1a, Nat.add_sub_cancel' h2a]
    exact hkji

theorem view_buffer_distributed (L : SubdomainLayout) (f : GlobalField)
    (hd : f.distributed = true) :
    (f.view L).buffer
      = L.localIndices.map fun p => f.data.getD (L.elementOffset p.1 p.2.1 p.2.2) 0 := by
  simp [GlobalField.view, hd]

theorem view_buffer_serial (L : SubdomainLayout) (f : GlobalField)
    (hd : f.distributed = false) : (f.view L).buffer = f.data := by
  simp [GlobalField.view, hd]

theorem writeAll_serial (f : GlobalField) (hd : f.distributed = false) (offset : ℕ) :
    ∀ (layouts : List SubdomainLayout) (rank : ℕ) (F : List ℕ), 1 ≤ rank →
      writeAll rank F offset (layouts.map fun L => f.view L) = F := by
  intro layouts
  induction layouts with
  | nil => intro rank F _; rfl
  | cons L rest ih =>
    intro rank F hr
    have hne : rank ≠ 0 := by omega
    simp only [List.map_cons, writeAll, view_strategy, view_descriptor, hd, Bool.false_eq_true,
      if_false, WriteSerial, hne]
    exact ih (rank + 1) F (by omega)

theorem writeAll_distributed (G : ℕ × ℕ × ℕ) (f : GlobalField) (hd : f.distributed = true)
    (TT : List ℕ) (offset N : ℕ)
    (hN : N = G.1 * G.2.1 * G.2.2)
    (hTT : TT.length = offset + headerSize f.descriptor
      + elementSize f.descriptor.elementType * N)
    (hT : ∀ g < N, ∀ b < elementSize f.descriptor.elementType,
      TT[offset + headerSize f.descriptor + elementSize f.descriptor.elementType * g + b]?
        = (encodeLE (elementSize f.descriptor.elementType) (f.data.getD g 0))[b]?) :
    ∀ (layouts : List SubdomainLayout) (rank : ℕ) (S : ℕ → Prop) (F : List ℕ), 1 ≤ rank →
      (∀ L ∈ layouts, L.globalExtent = G ∧ L.within) →
      agrees TT (offset + headerSize f.descriptor) (elementSize f.descriptor.elementType) N S F →
      agrees TT (offset + headerSize f.descriptor) (elementSize f.descriptor.elementType) N
        (fun x => S x ∨ ∃ L ∈ layouts, ∃ p ∈ L.localIndices,
          L.elementOffset p.1 p.2.1 p.2.2 = x)
        (writeAll rank F offset (layouts.map fun L => f.view L)) := by
  intro layouts
  induction layouts with
  | nil =>
    intro rank S F _ _ hF
    exact agrees_mono TT _ _ N S _ F hF (by
      intro g hg
      rcases hg with h | ⟨L, hL, _⟩
      · exact h
      · simp at hL)
  | cons L rest ih =>
    intro rank S F hr hls hF
    have hne : rank ≠ 0 := by omega
    have hL := hls L (List.mem_cons_self _ _)
    have hlt : ∀ p ∈ L.localIndices, L.elementOffset p.1 p.2.1 p.2.2 < N := by
      intro p hp
      have := elementOffset_lt L hL.2 p hp
      rw [hL.1] at this
      rw [hN]
      exact this
    have hsc := scatter_agrees TT _ _ N hTT L f.data hT L.localIndices S F hlt hF
    have := ih (rank + 1) _ _ (by omega) (fun M hM => hls M (List.mem_cons_of_mem _ hM)) hsc
    simp only [List.map_cons, writeAll, view_strategy, view_descriptor,
      view_buffer_distributed L f hd, hd, if_true, WriteDistributed, hne, if_false,
      zip_map_self]
    refine agrees_mono TT _ _ N _ _ _ this ?_
    intro g hg
    rcases hg with h | ⟨M, hM, p, hp, hpe⟩
    · exact Or.inl (Or.inl h)
    · rcases List.mem_cons.mp hM with h | h
      · subst h
        exact Or.inl (Or.inr ⟨p, hp, hpe⟩)
      · exact Or.inr ⟨M, h, p, hp, hpe⟩
theorem elementSize_pos (t : DataType) : 0 < elementSize t := by
  cases t <;> decide

theorem view_layoutOk (G : ℕ × ℕ × ℕ) (f : GlobalField) (hf : f.wellFormed G)
    (L : SubdomainLayout) (hLG : L.globalExtent = G) (hLw : L.within) :
    (f.view L).layoutOk = true := by
  unfold FieldBinding.layoutOk
  rw [view_strategy, view_descriptor]
  by_cases hd : f.distributed = true
  · simp only [hd, if_true, decide_eq_true_eq]
    exact ⟨by rw [hf.2.2.2.2.2.2 hd, hLG], hLw⟩
  · have hd2 : f.distributed = false := by simpa using hd
    simp [hd2]

theorem writeRecord_record (G : ℕ × ℕ × ℕ) (f : GlobalField) (hf : f.wellFormed G)
    (layouts : List SubdomainLayout) (hv : validDecomposition G layouts)
    (hne : layouts ≠ []) (file : List ℕ) :
    writeRecord file file.length (layouts.map fun L => f.view L)
      = .ok (file ++ recordBytes f, (file ++ recordBytes f).length) := by
  have hreclen := recordBytes_length G f hf
  have hall : (layouts.map fun L => f.view L).all FieldBinding.layoutOk = true := by
    rw [List.all_eq_true]
    intro b hb
    obtain ⟨L, hL, rfl⟩ := List.mem_map.mp hb
    exact view_layoutOk G f hf L (hv.1 L hL).1 (hv.1 L hL).2
  cases layouts with
  | nil => exact absurd rfl hne
  | cons L0 rest =>
    have hrest : ∀ L ∈ rest, L.globalExtent = G ∧ L.within :=
      fun L hL => hv.1 L (List.mem_cons_of_mem _ hL)
    have hL0 := hv.1 L0 (List.mem_cons_self _ _)
    have hfile : writeAll 0 file file.length ((L0 :: rest).map fun L => f.view L)
        = file ++ recordBytes f := by
      have hhdr : writeAt file file.length (headerBytes f.descriptor)
          = file ++ headerBytes f.descriptor := writeAt_end _ _
      have hbase : (file ++ headerBytes f.descriptor).length
          = file.length + headerSize f.descriptor := by
        simp [headerBytes_length]
      by_cases hd : f.distributed = true
      · obtain ⟨N, hN⟩ : ∃ N, N = G.1 * G.2.1 * G.2.2 := ⟨_, rfl⟩
        have hdata : f.data.length = N := by
          rw [hf.2.2.2.2.1, FieldDescriptor.elementCount, hf.2.2.2.2.2.2 hd]
          simp [hN, Nat.mul_assoc]
        have hTT : (file ++ recordBytes f).length
            = file.length + headerSize f.descriptor
              + elementSize f.descriptor.elementType * N := by
          rw [List.length_append, hreclen, payloadSize, ← hf.2.2.2.2.1, hdata, Nat.add_assoc]
        have hT : ∀ g < N, ∀ b < elementSize f.descriptor.elementType,
            (file ++ recordBytes f)[file.length + headerSize f.descriptor
                + elementSize f.descriptor.elementType * g + b]?
              = (encodeLE (elementSize f.descriptor.elementType) (f.data.getD g 0))[b]? := by
          intro g hg b hb
          have hchunk := readAt_chunk (elementSize f.descriptor.elementType) f.data
            (file ++ headerBytes f.descriptor) [] g _ (getD_mem_of_lt f.data g (by omega)).1
          rw [hbase] at hchunk
          have := (readAt_getElem? _ _ _ _ hchunk).2.2 b hb
          simpa [recordBytes, List.append_assoc] using this
        have h0 : agrees (file ++ recordBytes f) (file.length + headerSize f.descriptor)
            (elementSize f.descriptor.elementType) N
            (fun _ => False) (file ++ headerBytes f.descriptor) := by
          refine ⟨by omega, by omega, ?_, ?_⟩
          · intro p hp
            rw [recordBytes, ← List.append_assoc,
              List.getElem?_append_left (by omega : p < (file ++ headerBytes f.descriptor).length)]
          · intro g hg
            exact absurd hg id
        have hlt : ∀ p ∈ L0.localIndices, L0.elementOffset p.1 p.2.1 p.2.2 < N := by
          intro p hp
          have := elementOffset_lt L0 hL0.2 p hp
          rw [hL0.1, ← hN] at this
          exact this
        have h1 := scatter_agrees _ _ _ N hTT L0 f.data hT L0.localIndices _ _ hlt h0
        have h2 := writeAll_distributed G f hd _ file.length N hN hTT hT rest 1 _ _
          (le_refl _) hrest h1
        have hfinal := agrees_all_eq _ _ _ N (elementSize_pos _) hTT _ _ h2 (by
          intro g hg
          obtain ⟨L, hL, p, hp, hpe⟩ := coverage G (L0 :: rest) hv g (hN ▸ hg)
          rcases List.mem_cons.mp hL with h | h
          · subst h
            exact Or.inl (Or.inr ⟨p, hp, hpe⟩)
          · exact Or.inr ⟨L, h, p, hp, hpe⟩)
        rw [← hfinal]
        simp only [List.map_cons, writeAll, view_strategy, view_descriptor,
          view_buffer_distributed L0 f hd, hd, if_true, WriteDistributed, hhdr, zip_map_self,
          zero_add]
      · have hd2 : f.distributed = false := by simpa using hd
        simp only [List.map_cons, writeAll, view_strategy, view_descriptor,
          view_buffer_serial L0 f hd2, hd2, Bool.false_eq_true, if_false, WriteSerial,
          if_true, zero_add]
        rw [writeAll_serial f hd2 file.length rest 1 _ (le_refl _), hhdr, ← hbase, writeAt_end,
          recordBytes, List.append_assoc]
    have hdesc : (f.view L0).descriptor = f.descriptor := view_descriptor L0 f
    unfold writeRecord
    simp only [List.map_cons] at hall hfile ⊢
    simp only [hall, if_true, hfile, hdesc, List.length_append, hreclen, Nat.add_assoc]

theorem filterMap_getElem?_dumps (state : List GlobalField) (layouts : List SubdomainLayout)
    (i : ℕ) (f : GlobalField) (hi : state[i]? = some f) :
    (layouts.map (processDump state)).filterMap (fun dump => dump[i]?)
      = layouts.map fun L => f.view L := by
  induction layouts with
  | nil => rfl
  | cons L rest ih =>
    simp only [List.map_cons, List.filterMap_cons, processDump, List.getElem?_map, hi,
      Option.map_some']
    rw [← ih]

theorem writeFields_canon (G : ℕ × ℕ × ℕ) (state : List GlobalField)
    (hwf : ∀ f ∈ state, f.wellFormed G) (layouts : List SubdomainLayout)
    (hv : validDecomposition G layouts) (hne : layouts ≠ []) :
    ∀ (rest done : List GlobalField), state = done ++ rest →
      writeFields (layouts.map (processDump state)) (List.range' done.length rest.length)
          (done.flatMap recordBytes) (done.flatMap recordBytes).length
        = .ok (state.flatMap recordBytes) := by
  intro rest
  induction rest with
  | nil =>
    intro done hst
    simp only [List.append_nil] at hst
    subst hst
    rfl
  | cons f rest ih =>
    intro done hst
    have hi : state[done.length]? = some f := by
      rw [hst, List.getElem?_append_right (le_refl _)]
      simp
    have hf : f.wellFormed G := hwf f (by rw [hst]; simp)
    have hrec := writeRecord_record G f hf layouts hv hne (done.flatMap recordBytes)
    have hnext := ih (done ++ [f]) (by rw [hst]; simp)
    simp only [List.flatMap_append, List.flatMap_cons, List.flatMap_nil, List.append_nil,
      List.length_append, List.length_cons, List.length_nil, zero_add] at hnext
    simp only [List.length_cons, List.range'_succ, writeFields,
      filterMap_getElem?_dumps state layouts done.length f hi, hrec, List.length_append]
    exact hnext

theorem write_canon (G : ℕ × ℕ × ℕ) (state : List GlobalField)
    (hwf : ∀ f ∈ state, f.wellFormed G) (layouts : List SubdomainLayout)
    (hv : validDecomposition G layouts) (hne : layouts ≠ []) :
    Write (layouts.map (processDump state)) = .ok (state.flatMap recordBytes) := by
  have := writeFields_canon G state hwf layouts hv hne state [] rfl
  cases layouts with
  | nil => exact absurd rfl hne
  | cons L0 rest =>
    simp only [List.length_nil, List.flatMap_nil] at this
    simp only [Write, List.map_cons, List.headD_cons, processDump, List.length_map,
      List.range_eq_range']
    exact this

/-! ### The properties -/

/-- C2: the tag of `DoubleType` is 0, of `SingleType` 1 and of `IntegerType` 2; the tags are
pairwise distinct, the map from type to tag is injective, and decoding a tag recovers the
type that was encoded: decoding the tag of a type gives that type, and a tag among 0, 1, 2
decodes to a type whose tag it is. -/
theorem dataType_tag_roundtrip :
    DataType.tag .DoubleType = 0 ∧ DataType.tag .SingleType = 1
    ∧ DataType.tag .IntegerType = 2
    ∧ (DataType.tag .DoubleType ≠ DataType.tag .SingleType
        ∧ DataType.tag .DoubleType ≠ DataType.tag .IntegerType
        ∧ DataType.tag .SingleType ≠ DataType.tag .IntegerType)
    ∧ Function.Injective DataType.tag
    ∧ (∀ t : DataType, DataType.ofTag (DataType.tag t) = some t)
    ∧ (∀ n : ℤ, n = 0 ∨ n = 1 ∨ n = 2 →
        ∃ t : DataType, DataType.ofTag n = some t ∧ DataType.tag t = n)
    ∧ (∀ (n : ℤ) (t : DataType), DataType.ofTag n = some t → DataType.tag t = n) := by
  refine ⟨rfl, rfl, rfl, ⟨by decide, by decide, by decide⟩, ?_, ?_, ?_, ?_⟩
  · intro a b h
    cases a <;> cases b <;> first | rfl | (exact absurd h (by decide))
  · intro t
    cases t <;> rfl
  · rintro n (rfl | rfl | rfl)
    · exact ⟨.DoubleType, rfl, rfl⟩
    · exact ⟨.SingleType, rfl, rfl⟩
    · exact ⟨.IntegerType, rfl, rfl⟩
  · intro n t h
    unfold DataType.ofTag at h
    split_ifs at h with h0 h1 h2 <;> simp only [Option.some.injEq] at h <;> subst h <;>
      simp [DataType.tag, *]

theorem Input.interpret_ne_mandatory {D F : Type} (lib : StdLib D F) (ty : ParamType)
    (b e : String) (num : ℤ) (s b1 e1 : String) (n1 : ℤ) :
    Input.interpret lib ty b e num s ≠ .error (.mandatoryParameter b1 e1 n1) := by
  cases ty <;> simp only [Input.interpret]
  · cases lib.stod s <;> simp
  · cases lib.stod s <;> simp
  · cases lib.stof s <;> simp
  · cases lib.stod s <;> simp
  · simp
  · split_ifs <;> simp
  · simp

/-- C3: `Input::Get<T>` raises the "Mandatory parameter ... Cannot be found in the input
file" error if and only if `CheckEntry(block, entry) <= num`, which for an index from 0 on
means that no string is stored at index `num` (entry absent, or fewer than `num + 1`
parameters). It never returns a value for a parameter that is not present: a value it
returns is the interpretation of the string stored at index `num`; and when
`CheckEntry(block, entry) > num`, with `num` an index from 0 on, that string exists and
the call does what its interpretation does. -/
theorem get_mandatory_iff_checkEntry_le {D F : Type} (lib : StdLib D F) (ty : ParamType)
    (inp : Input) (blockName paramName : String) (num : ℤ) :
    ((∃ b1 e1 n1, inp.Get lib ty blockName paramName num
          = .error (.mandatoryParameter b1 e1 n1))
        ↔ inp.CheckEntry blockName paramName ≤ num)
    ∧ (inp.CheckEntry blockName paramName ≤ num →
        inp.Get lib ty blockName paramName num
          = .error (.mandatoryParameter blockName paramName num))
    ∧ (0 ≤ num →
        (inp.CheckEntry blockName paramName ≤ num ↔ inp.stored blockName paramName num = none))
    ∧ (∀ v, inp.Get lib ty blockName paramName num = .value v →
        ∃ s, inp.stored blockName paramName num = some s
          ∧ Input.interpret lib ty blockName paramName num s = .value v)
    ∧ (num < inp.CheckEntry blockName paramName → 0 ≤ num →
        ∃ s, inp.stored blockName paramName num = some s
          ∧ inp.Get lib ty blockName paramName num
              = Input.interpret lib ty blockName paramName num s) := by
  have hget : ¬ inp.CheckEntry blockName paramName ≤ num →
      inp.Get lib ty blockName paramName num
        = match inp.stored blockName paramName num with
          | none => .undefined
          | some s => Input.interpret lib ty blockName paramName num s := by
    intro h
    simp only [Input.Get, if_neg h, Input.fetch_eq_stored]
  refine ⟨⟨?_, ?_⟩, ?_, ?_, ?_, ?_⟩
  · rintro ⟨b1, e1, n1, h⟩
    by_contra hc
    rw [hget hc] at h
    cases hs : inp.stored blockName paramName num with
    | none => simp [hs] at h
    | some s =>
      simp only [hs] at h
      exact Input.interpret_ne_mandatory lib ty _ _ _ _ _ _ _ h
  · intro h
    exact ⟨blockName, paramName, num, by simp [Input.Get, h]⟩
  · intro h
    simp [Input.Get, h]
  · intro h0
    have := Input.stored_isSome_iff inp blockName paramName num h0
    rw [← not_lt, ← this]
    cases inp.stored blockName paramName num <;> simp
  · intro v hv
    by_cases hc : inp.CheckEntry blockName paramName ≤ num
    · simp [Input.Get, hc] at hv
    · rw [hget hc] at hv
      cases hs : inp.stored blockName paramName num with
      | none => simp [hs] at hv
      | some s =>
        simp only [hs] at hv
        exact ⟨s, rfl, hv⟩
  · intro hlt h0
    have hsome := (Input.stored_isSome_iff inp blockName paramName num h0).mpr hlt
    obtain ⟨s, hs⟩ := Option.isSome_iff_exists.mp hsome
    refine ⟨s, hs, ?_⟩
    rw [hget (not_le.mpr hlt), hs]

/-- C3, on an example: the entry `[Output]:vtk` has one parameter; index 1 raises the
"Mandatory parameter" error and index 0 is read as the boolean `true`. -/
theorem get_mandatory_iff_checkEntry_le_witness :
    Input.Get integerLib .bool sampleInput "Output" "vtk" 1
        = .error (.mandatoryParameter "Output" "vtk" 1)
    ∧ (∃ s, sampleInput.stored "Output" "vtk" 0 = some s
        ∧ Input.Get integerLib .bool sampleInput "Output" "vtk" 0
            = Input.interpret integerLib .bool "Output" "vtk" 0 s) :=
  ⟨(get_mandatory_iff_checkEntry_le integerLib .bool sampleInput "Output" "vtk" 1).2.1
      (by decide),
    (get_mandatory_iff_checkEntry_le integerLib .bool sampleInput "Output" "vtk" 0).2.2.2.2
      (by decide) (by decide)⟩

/-- C4: for a string `s` stored at the index read, `Input::Get<bool>` returns `true`
exactly when the lower-cased `s` is "yes", "true" or "1", returns `false` exactly when it
is "no", "false" or "0", and raises an error (the "Boolean parameter" one) for every other
string, and only then; the match ignores case: "YES" and "True" are read as `true`. -/
theorem get_bool_accepts_exactly {D F : Type} (lib : StdLib D F) (inp : Input)
    (blockName paramName : String) (num : ℤ) (s : String)
    (hs : inp.stored blockName paramName num = some s) :
    (inp.Get lib .bool blockName paramName num = .value true
        ↔ (toLowerString s = "yes" ∨ toLowerString s = "true" ∨ toLowerString s = "1"))
    ∧ (inp.Get lib .bool blockName paramName num = .value false
        ↔ (toLowerString s = "no" ∨ toLowerString s = "false" ∨ toLowerString s = "0"))
    ∧ ((∃ err, inp.Get lib .bool blockName paramName num = .error err)
        ↔ ¬ (toLowerString s = "yes" ∨ toLowerString s = "true" ∨ toLowerString s = "1"
              ∨ toLowerString s = "no" ∨ toLowerString s = "false" ∨ toLowerString s = "0"))
    ∧ (¬ (toLowerString s = "yes" ∨ toLowerString s = "true" ∨ toLowerString s = "1"
              ∨ toLowerString s = "no" ∨ toLowerString s = "false" ∨ toLowerString s = "0")
        → inp.Get lib .bool blockName paramName num
            = .error (.notBoolean blockName paramName num (toLowerString s)))
    ∧ toLowerString "YES" = "yes" ∧ toLowerString "True" = "true"
    ∧ (s = "YES" ∨ s = "True" → inp.Get lib .bool blockName paramName num = .value true) := by
  have h0 : 0 ≤ num := by
    by_contra hneg
    unfold Input.stored at hs
    cases hb : mapFind inp.inputParameters blockName with
    | none => simp [hb] at hs
    | some block =>
      cases he : mapFind block paramName with
      | none => simp [hb, he] at hs
      | some params => simp [hb, he, hneg] at hs
  have hlt : ¬ inp.CheckEntry blockName paramName ≤ num := by
    rw [not_le, ← Input.stored_isSome_iff inp blockName paramName num h0, hs]
    rfl
  have hget : inp.Get lib .bool blockName paramName num
      = Input.interpret lib .bool blockName paramName num s := by
    simp only [Input.Get, if_neg hlt, Input.fetch_eq_stored, hs]
  have hYES : toLowerString "YES" = "yes" := by decide
  have hTrue : toLowerString "True" = "true" := by decide
  rw [hget]
  simp only [Input.interpret]
  refine ⟨?_, ?_, ?_, ?_, hYES, hTrue, ?_⟩
  · constructor
    · intro h
      split_ifs at h with h1 h2 h3 h4 h5 h6 <;> simp_all
    · rintro (h | h | h) <;> simp [h]
  · constructor
    · intro h
      split_ifs at h with h1 h2 h3 h4 h5 h6 <;> simp_all
    · rintro (h | h | h) <;> simp [h]
  · constructor
    · rintro ⟨err, h⟩
      split_ifs at h with h1 h2 h3 h4 h5 h6
      simp_all
    · intro h
      push_neg at h
      exact ⟨.notBoolean blockName paramName num (toLowerString s),
        by simp [h.1, h.2.1, h.2.2.1, h.2.2.2.1, h.2.2.2.2.1, h.2.2.2.2.2]⟩
  · intro h
    push_neg at h
    simp [h.1, h.2.1, h.2.2.1, h.2.2.2.1, h.2.2.2.2.1, h.2.2.2.2.2]
  · rintro (rfl | rfl)
    · simp [hYES]
    · simp [hTrue]

/-- C4, on an example: the parameter "YES" of `[Output]:vtk` is read as `true`. -/
theorem get_bool_accepts_exactly_witness :
    sampleInput.stored "Output" "vtk" 0 = some "YES"
    ∧ Input.Get integerLib .bool sampleInput "Output" "vtk" 0 = .value true :=
  ⟨by decide,
    (get_bool_accepts_exactly integerLib sampleInput "Output" "vtk" 0 "YES" (by decide)).2.2.2.2.2.2
      (Or.inl rfl)⟩

theorem Input.checkEntry_ge (inp : Input) (b e : String) : -1 ≤ inp.CheckEntry b e := by
  unfold Input.CheckEntry
  split
  · exact le_refl _
  · split
    · exact le_refl _
    · omega

theorem Input.getOrSet_absent {D F : Type} (lib : StdLib D F) (ty : ParamType) (inp : Input)
    (b e : String) (dflt : ty.val D F) (habsent : inp.CheckEntry b e < 0) :
    inp.GetOrSet lib ty b e 0 dflt
        = (Input.interpret lib ty b e 0 (Input.streamOut lib ty dflt),
            inp.pushBack b e (Input.streamOut lib ty dflt))
    ∧ (inp.pushBack b e (Input.streamOut lib ty dflt)).stored b e 0
        = some (Input.streamOut lib ty dflt)
    ∧ (inp.pushBack b e (Input.streamOut lib ty dflt)).Get lib ty b e 0
        = Input.interpret lib ty b e 0 (Input.streamOut lib ty dflt) := by
  have hempty := Input.mapAt_of_checkEntry_neg inp b e habsent
  have hce := Input.checkEntry_pushBack inp b e (Input.streamOut lib ty dflt)
  have hfe := Input.fetch_pushBack inp b e (Input.streamOut lib ty dflt)
  rw [hempty] at hce hfe
  simp only [List.length_nil, Nat.cast_zero, zero_add] at hce hfe
  have hget : (inp.pushBack b e (Input.streamOut lib ty dflt)).Get lib ty b e 0
      = Input.interpret lib ty b e 0 (Input.streamOut lib ty dflt) := by
    simp only [Input.Get, hce, hfe]
    simp
  refine ⟨?_, ?_, hget⟩
  · have h1 : inp.CheckEntry b e ≤ 0 := le_of_lt habsent
    have h2 : ¬ (inp.CheckEntry b e < 0 ∧ (0 : ℤ) < 0) := by simp
    have h3 : ¬ (inp.CheckEntry b e + 1 < 0) := by
      have := Input.checkEntry_ge inp b e
      omega
    simp only [Input.GetOrSet, if_pos h1, if_neg h2, if_neg h3, hget]
  · rw [← Input.fetch_eq_stored]
    exact hfe

/-- C5: for `T` among `int`, `bool` and `std::string` and every default value `def` of
type `T` (an `int` being a 32-bit integer): when the entry is not defined (`CheckEntry` is
negative), `GetOrSet<T>(block, entry, 0, def)` returns `def`, it stores the text of `def` as
parameter 0 of the entry, and a following `Get<T>(block, entry, 0)` returns `def` too. For
`int` the text is read back through `stod`: the standard library is assumed to read the
decimal text of a 32-bit integer as a double that rounds to this integer. -/
theorem getOrSet_default_roundtrip {D F : Type} (lib : StdLib D F) (inp : Input)
    (blockName paramName : String)
    (habsent : inp.CheckEntry blockName paramName < 0)
    (hlib : ∀ n : ℤ, -2147483648 ≤ n → n ≤ 2147483647 →
      ∃ d, lib.stod (toString n) = some d ∧ lib.roundToInt d = n) :
    (∀ d : ℤ, -2147483648 ≤ d → d ≤ 2147483647 →
      (inp.GetOrSet lib .int blockName paramName 0 d).1 = .value d
      ∧ (inp.GetOrSet lib .int blockName paramName 0 d).2.stored blockName paramName 0
          = some (toString d)
      ∧ (inp.GetOrSet lib .int blockName paramName 0 d).2.Get lib .int blockName paramName 0
          = .value d)
    ∧ (∀ d : Bool,
      (inp.GetOrSet lib .bool blockName paramName 0 d).1 = .value d
      ∧ (inp.GetOrSet lib .bool blockName paramName 0 d).2.stored blockName paramName 0
          = some (if d = true then "true" else "false")
      ∧ (inp.GetOrSet lib .bool blockName paramName 0 d).2.Get lib .bool blockName paramName 0
          = .value d)
    ∧ (∀ d : String,
      (inp.GetOrSet lib .string blockName paramName 0 d).1 = .value d
      ∧ (inp.GetOrSet lib .string blockName paramName 0 d).2.stored blockName paramName 0
          = some d
      ∧ (inp.GetOrSet lib .string blockName paramName 0 d).2.Get lib .string
            blockName paramName 0 = .value d) := by
  refine ⟨?_, ?_, ?_⟩
  · intro d hlo hhi
    obtain ⟨h1, h2, h3⟩ := Input.getOrSet_absent lib .int inp blockName paramName d habsent
    obtain ⟨dv, hdv, hround⟩ := hlib d hlo hhi
    have hint : Input.interpret lib .int blockName paramName 0
        (Input.streamOut lib .int d) = .value d := by
      simp only [Input.interpret, Input.streamOut, hdv, hround]
    rw [h1]
    exact ⟨hint, h2, h3.trans hint⟩
  · intro d
    obtain ⟨h1, h2, h3⟩ := Input.getOrSet_absent lib .bool inp blockName paramName d habsent
    have hint : Input.interpret lib .bool blockName paramName 0
        (Input.streamOut lib .bool d) = .value d := by
      cases d
      · have : toLowerString "false" = "false" := by decide
        simp [Input.interpret, Input.streamOut, this]
      · have : toLowerString "true" = "true" := by decide
        simp [Input.interpret, Input.streamOut, this]
    rw [h1]
    exact ⟨hint, h2, h3.trans hint⟩
  · intro d
    obtain ⟨h1, h2, h3⟩ := Input.getOrSet_absent lib .string inp blockName paramName d habsent
    have hint : Input.interpret lib .string blockName paramName 0
        (Input.streamOut lib .string d) = .value d := by
      simp only [Input.interpret, Input.streamOut]
    rw [h1]
    exact ⟨hint, h2, h3.trans hint⟩

/-- C5, on an example: the entry `[Hydro]:gamma` is not in the sample input; the defaults
`-42`, `true` and "hll" come back from `GetOrSet`. -/
theorem getOrSet_default_roundtrip_witness :
    sampleInput.CheckEntry "Hydro" "gamma" < 0
    ∧ (sampleInput.GetOrSet integerLib .int "Hydro" "gamma" 0 (-42 : ℤ)).1 = .value (-42 : ℤ)
    ∧ (sampleInput.GetOrSet integerLib .bool "Hydro" "gamma" 0 true).1 = .value true
    ∧ (sampleInput.GetOrSet integerLib .string "Hydro" "gamma" 0 "hll").1 = .value "hll" :=
  have h := getOrSet_default_roundtrip integerLib sampleInput "Hydro" "gamma" (by decide)
    (fun n _ _ => ⟨n, readInteger_toString n, rfl⟩)
  ⟨by decide, (h.1 (-42) (by decide) (by decide)).1, (h.2.1 true).1, (h.2.2 "hll").1⟩

/-- C6: the constant `nameSize` of `OutputDump` equals 16, and it is the width of the
null-padded name that opens a record header: `WriteString` writes 16 bytes whatever the
name. -/
theorem nameSize_eq_sixteen :
    OutputDump.nameSize = 16
    ∧ ∀ name : String, (OutputDump.WriteString name).length = OutputDump.nameSize := by
  refine ⟨rfl, ?_⟩
  intro name
  simp [OutputDump.WriteString]

/-- C7: for a state `s` with `0 < s < 2147483647`, one call of `randm` replaces the state
by `(16807 * s) mod 2147483647` computed in exact integer arithmetic: the product is below
`2^53` and rounding it to double precision changes nothing, the remainder fits a 32-bit
`int`, and the value returned is the new state divided by 2147483647 (in double precision).
The state after `n` calls is `(16807^n * s) mod 2147483647`, a function of the seed alone,
and the two copies of `randm` (HallDisk, ShearingBox) are the same function. -/
theorem randm_exact_lehmer_step (s : ℤ) (h0 : 0 < s) (h1 : s < 2147483647) :
    16807 * s < 2 ^ 53
    ∧ roundDouble ((16807 : ℚ) * (s : ℚ)) = (16807 : ℚ) * (s : ℚ)
    ∧ (HallDisk.randm s).2 = (16807 * s) % 2147483647
    ∧ (0 ≤ (HallDisk.randm s).2 ∧ (HallDisk.randm s).2 < 2 ^ 31)
    ∧ (HallDisk.randm s).1
        = roundDouble ((((16807 * s) % 2147483647 : ℤ) : ℚ) / (2147483647 : ℚ))
    ∧ (∀ n : ℕ, HallDisk.randmState s n = (16807 ^ n * s) % 2147483647)
    ∧ ShearingBox.randm = HallDisk.randm
    ∧ (∀ n : ℕ, ShearingBox.randmState s n = HallDisk.randmState s n) := by
  have hstep := randm_step h0 h1
  have hrange := lehmer_ne_zero h0 h1
  refine ⟨by omega, ?_, hstep, ?_, ?_, randmState_closed h0 h1, rfl,
    shearingBox_randmState_eq s⟩
  · have := roundDouble_intCast (n := 16807 * s) (by omega) (by norm_num; omega)
    push_cast at this
    exact this
  · rw [hstep]
    constructor
    · omega
    · have := hrange.2
      norm_num
      omega
  · rw [← hstep]
    simp only [HallDisk.randm]
    norm_num

/-- C7, on an example: from state 1 one call gives state 16807, from state 2147483646 it
gives `16807 * 2147483646 mod 2147483647`. -/
theorem randm_exact_lehmer_step_witness :
    (HallDisk.randm 1).2 = (16807 * 1) % 2147483647
    ∧ (HallDisk.randm 2147483646).2 = (16807 * 2147483646) % 2147483647 :=
  ⟨(randm_exact_lehmer_step 1 (by decide) (by decide)).2.2.1,
    (randm_exact_lehmer_step 2147483646 (by decide) (by decide)).2.2.1⟩

theorem randmValue_range {s : ℤ} (h0 : 0 < s) (h1 : s < 2147483647) (n : ℕ) :
    0 < HallDisk.randmValue s n ∧ HallDisk.randmValue s n < 1 := by
  have hr := randmState_range h0 h1 n
  have hstep := randm_step hr.1 hr.2
  have hq := lehmer_ne_zero hr.1 hr.2
  have hval : HallDisk.randmValue s n
      = roundDouble ((((HallDisk.randm (HallDisk.randmState s n)).2 : ℤ) : ℚ)
          / ((2147483647 : ℤ) : ℚ)) := by
    simp only [HallDisk.randmValue, HallDisk.randm]
  rw [hval, hstep]
  constructor
  · apply roundDouble_pos
    apply div_pos
    · exact_mod_cast hq.1
    · norm_num
  · exact roundDouble_lt_one hq.1 hq.2 (by norm_num)

/-- C8: from the seed `13763 + 2417 * prank` of a rank `prank >= 0` whose seed is below
2147483647, the state after any number of `randm` calls lies in `[1, 2147483646]` (it is
never 0, and from state 0 `randm` returns 0 and stays at 0), and every value `randm`
returns lies strictly between 0 and 1; the same holds for both copies of `randm`. The
modulus 2147483647 is prime and divides neither 16807 nor the state. -/
theorem randm_state_stays_in_range (prank : ℤ) (hp : 0 ≤ prank)
    (hs : HallDisk.seed prank < 2147483647) (n : ℕ) :
    (1 ≤ HallDisk.randmState (HallDisk.seed prank) n
      ∧ HallDisk.randmState (HallDisk.seed prank) n ≤ 2147483646)
    ∧ (0 < HallDisk.randmValue (HallDisk.seed prank) n
      ∧ HallDisk.randmValue (HallDisk.seed prank) n < 1)
    ∧ (1 ≤ ShearingBox.randmState (ShearingBox.seed prank) n
      ∧ ShearingBox.randmState (ShearingBox.seed prank) n ≤ 2147483646)
    ∧ (0 < ShearingBox.randmValue (ShearingBox.seed prank) n
      ∧ ShearingBox.randmValue (ShearingBox.seed prank) n < 1)
    ∧ HallDisk.randm 0 = (0, 0)
    ∧ Nat.Prime 2147483647
    ∧ ¬ (2147483647 : ℤ) ∣ 16807
    ∧ ¬ (2147483647 : ℤ) ∣ HallDisk.randmState (HallDisk.seed prank) n := by
  have h0 : 0 < HallDisk.seed prank := by
    unfold HallDisk.seed
    omega
  have hst := randmState_range h0 hs n
  have hval := randmValue_range h0 hs n
  have hsame : ShearingBox.seed prank = HallDisk.seed prank := rfl
  have hv2 : ShearingBox.randmValue (ShearingBox.seed prank) n
      = HallDisk.randmValue (HallDisk.seed prank) n := by
    simp only [ShearingBox.randmValue, HallDisk.randmValue, hsame, shearingBox_randmState_eq]
    rfl
  rw [hv2, hsame, shearingBox_randmState_eq]
  refine ⟨⟨by omega, by omega⟩, hval, ⟨by omega, by omega⟩, hval, ?_, prime_mersenne31,
    by norm_num, ?_⟩
  · simp [HallDisk.randm, roundDouble, fmod, truncToInt]
  · intro hdvd
    have := Int.le_of_dvd hst.1 hdvd
    omega

/-- C8, on an example: process rank 3 has seed 21014; its first state and value. -/
theorem randm_state_stays_in_range_witness :
    HallDisk.seed 3 < 2147483647
    ∧ 1 ≤ HallDisk.randmState (HallDisk.seed 3) 5
    ∧ HallDisk.randmValue (HallDisk.seed 3) 5 < 1 :=
  ⟨by decide, (randm_state_stays_in_range 3 (by decide) (by decide) 5).1.1,
    (randm_state_stays_in_range 3 (by decide) (by decide) 5).2.1.2⟩

theorem roundDouble_one_sixth_lt_one : roundDouble (1 / 6) < 1 := by
  have := roundDouble_lt_one (q := 1) (m := 6) (by norm_num) (by norm_num) (by norm_num)
  push_cast at this
  exact this

/-- C9: in the lower x2 boundary of MachReflection (`dir = JDIR`, `side = left`,
`jend = beg[JDIR]`), for a ghost row `j < jend` the reflecting branch reads row
`2*jend - j - 1`. This row lies in `[jend, 2*jend - 1]`; its centre is as far above the
boundary face `jend` as the centre of row `j` is below it; it is not a row the loop writes
(no index triple of the loop has it as its `j`); and it is inside the array when
`np_tot[JDIR] >= 2*jend`. Whatever the order in which the bodies of the parallel loop run,
the reflected cell ends with `RHO`, `VX1` and `PRS` of the source cell and with the
opposite of its `VX2`, the values being those the array had before the loop. -/
theorem machReflection_x2beg_reflects (np_totK np_totJ np_totI jend : ℕ) (x1 : ℕ → ℚ)
    (c : MachReflection.Inflow) (order : List (ℕ × ℕ × ℕ)) (Vc : MachReflection.Array4D)
    (k j i : ℕ)
    (horder : order.Perm (MachReflection.loopIndices 0 np_totK 0 jend 0 np_totI))
    (hk : k < np_totK) (hj : j < jend) (hi : i < np_totI)
    (hrefl : ¬ x1 i < roundDouble (1 / 6)) :
    (jend ≤ 2 * jend - j - 1 ∧ 2 * jend - j - 1 ≤ 2 * jend - 1)
    ∧ (((2 * jend - j - 1 : ℕ) : ℚ) + 1 / 2) - (jend : ℚ) = (jend : ℚ) - ((j : ℚ) + 1 / 2)
    ∧ (∀ p ∈ order, p.2.1 < jend ∧ p.2.1 ≠ 2 * jend - j - 1)
    ∧ (2 * jend ≤ np_totJ → 2 * jend - j - 1 < np_totJ)
    ∧ MachReflection.UserdefBoundaryX2Beg jend x1 c order Vc .RHO k j i
        = Vc .RHO k (2 * jend - j - 1) i
    ∧ MachReflection.UserdefBoundaryX2Beg jend x1 c order Vc .VX1 k j i
        = Vc .VX1 k (2 * jend - j - 1) i
    ∧ MachReflection.UserdefBoundaryX2Beg jend x1 c order Vc .VX2 k j i
        = -(Vc .VX2 k (2 * jend - j - 1) i)
    ∧ MachReflection.UserdefBoundaryX2Beg jend x1 c order Vc .PRS k j i
        = Vc .PRS k (2 * jend - j - 1) i := by
  have hmem : ∀ p, p ∈ order ↔ p ∈ MachReflection.loopIndices 0 np_totK 0 jend 0 np_totI :=
    fun p => horder.mem_iff
  have hrows : ∀ p ∈ order, p.2.1 < jend := by
    rintro ⟨pk, pj, pi⟩ hp
    have := (mem_loopIndices 0 np_totK 0 jend 0 np_totI pk pj pi).mp ((hmem _).mp hp)
    exact this.2.1.2
  have hin : (k, j, i) ∈ order :=
    (hmem _).mpr ((mem_loopIndices 0 np_totK 0 jend 0 np_totI k j i).mpr
      ⟨⟨Nat.zero_le _, hk⟩, ⟨Nat.zero_le _, hj⟩, ⟨Nat.zero_le _, hi⟩⟩)
  have hloop := runLoop_x2Beg x1 c jend Vc order Vc hrows (fun _ _ _ _ _ => rfl)
  have hcast : ((2 * jend - j - 1 : ℕ) : ℚ) = 2 * (jend : ℚ) - (j : ℚ) - 1 := by
    have : 2 * jend - j - 1 + j + 1 = 2 * jend := by omega
    have h2 : (((2 * jend - j - 1 + j + 1 : ℕ)) : ℚ) = ((2 * jend : ℕ) : ℚ) := by rw [this]
    push_cast at h2
    linarith
  refine ⟨⟨by omega, by omega⟩, ?_, ?_, ?_, ?_, ?_, ?_, ?_⟩
  · rw [hcast]; ring
  · intro p hp
    have := hrows p hp
    exact ⟨this, by omega⟩
  · intro h; omega
  all_goals
    simp only [MachReflection.UserdefBoundaryX2Beg]
    rw [hloop, if_pos ⟨hin, by decide⟩]
    simp only [MachReflection.target, if_neg hrefl]

/-- C9, on an example: two ghost rows (`jend = 2`), six rows in all, no inflow cell; ghost
row 0 takes `RHO` from row 3 and ghost row 1 takes the opposite of `VX2` of row 2. -/
theorem machReflection_x2beg_reflects_witness :
    MachReflection.UserdefBoundaryX2Beg 2 (fun _ => 1) ⟨0, 0⟩
        (MachReflection.loopIndices 0 1 0 2 0 2) MachReflection.sampleVc .RHO 0 0 1
      = MachReflection.sampleVc .RHO 0 3 1
    ∧ MachReflection.UserdefBoundaryX2Beg 2 (fun _ => 1) ⟨0, 0⟩
        (MachReflection.loopIndices 0 1 0 2 0 2) MachReflection.sampleVc .VX2 0 1 0
      = -(MachReflection.sampleVc .VX2 0 2 0) :=
  ⟨(machReflection_x2beg_reflects 1 6 2 2 (fun _ => 1) ⟨0, 0⟩
      (MachReflection.loopIndices 0 1 0 2 0 2) MachReflection.sampleVc 0 0 1
      (List.Perm.refl _) (by decide) (by decide) (by decide)
      (not_lt.mpr (le_of_lt roundDouble_one_sixth_lt_one))).2.2.2.2.1,
    (machReflection_x2beg_reflects 1 6 2 2 (fun _ => 1) ⟨0, 0⟩
      (MachReflection.loopIndices 0 1 0 2 0 2) MachReflection.sampleVc 0 1 0
      (List.Perm.refl _) (by decide) (by decide) (by decide)
      (not_lt.mpr (le_of_lt roundDouble_one_sixth_lt_one))).2.2.2.2.2.2.1⟩

/-- C1: for every dump state (an ordered list of named fields with their shapes and
element values, each one the record format can hold) and every pair of decompositions of
the same global extent, over P1 writing and P2 reading processes with P1, P2 among 1, 2,
4, 8: `Write` produces a file, and `Read` applied to this file by any reading process,
whatever its buffers held before, gives back the dump of that process for the written
state: every field, element for element (a serial field whole, a distributed field by the
subarray the process owns). -/
theorem dump_read_write_roundtrip (G : ℕ × ℕ × ℕ) (state : List GlobalField)
    (writers readers : List SubdomainLayout)
    (hstate : ∀ f ∈ state, f.wellFormed G)
    (hP1 : writers.length ∈ [1, 2, 4, 8]) (hP2 : readers.length ∈ [1, 2, 4, 8])
    (hwriters : validDecomposition G writers) (hreaders : validDecomposition G readers) :
    ∃ file, Write (writers.map (processDump state)) = .ok file
      ∧ ∀ L ∈ readers, ∀ stale : List FieldBinding,
          stale.map (fun b => (b.descriptor, b.strategy))
            = (processDump state L).map (fun b => (b.descriptor, b.strategy)) →
          Read stale file = .ok (processDump state L) := by
  have hne : writers ≠ [] := by
    intro h
    rw [h] at hP1
    simp at hP1
  have hne2 : readers ≠ [] := by
    intro h
    rw [h] at hP2
    simp at hP2
  clear hne2
  refine ⟨state.flatMap recordBytes, write_canon G state hstate writers hwriters hne, ?_⟩
  intro L hL stale hstale
  have hLG := hreaders.1 L hL
  have := readFields_canon G L hLG.1 hLG.2 state stale [] [] hstate hstale
  simpa [Read] using this

/-- C1, on the scenario of section 8: a field of shape (2,2,2) holding the doubles 0.0 to
7.0 (and a serial field) written by two processes, each owning half the first axis, and
read back by one process. -/
theorem dump_read_write_roundtrip_witness :
    validDecomposition (2, 2, 2) twoProcesses ∧ validDecomposition (2, 2, 2) oneProcess
    ∧ ∃ file, Write (twoProcesses.map (processDump [scenarioTime, scenarioField])) = .ok file
      ∧ ∀ L ∈ oneProcess, ∀ stale : List FieldBinding,
          stale.map (fun b => (b.descriptor, b.strategy))
            = (processDump [scenarioTime, scenarioField] L).map
                (fun b => (b.descriptor, b.strategy)) →
          Read stale file = .ok (processDump [scenarioTime, scenarioField] L) :=
  ⟨by decide, by decide,
    dump_read_write_roundtrip (2, 2, 2) [scenarioTime, scenarioField] twoProcesses oneProcess
      (by decide) (by decide) (by decide) (by decide) (by decide)⟩
